import Mathlib

/-!
# Verification of the countdown search engine

A shallow embedding, in Lean 4, of the core of the `countdown_rs`
repository: the arithmetic number systems (`NormalNumberSystem`,
`ModularNumberSystem`), the expression trees and their validity rule,
the recursive expression-tree generator, the duplicate-aware permutation
generators, and the thread-backed result channel.  The numeric type is
embedded as `Nat` (the binary crate instantiates the generic code at
`usize`); checked arithmetic models 64-bit `usize` overflow explicitly.

Each definition is translated from the corresponding Rust item in
`src/`, keeping the source's names where Lean allows it.
-/

namespace Countdown

/-- `usize::MAX` for the 64-bit target the binary crate builds for. -/
def USIZE_MAX : Nat := 2 ^ 64 - 1

/-- `usize::checked_add`: `None` on overflow past `usize::MAX`. -/
def checked_add (a b : Nat) : Option Nat :=
  if a + b ≤ USIZE_MAX then some (a + b) else none

/-- `usize::checked_sub`: `None` when the subtrahend exceeds the minuend. -/
def checked_sub (a b : Nat) : Option Nat :=
  if b ≤ a then some (a - b) else none

/-- `usize::checked_mul`: `None` on overflow past `usize::MAX`. -/
def checked_mul (a b : Nat) : Option Nat :=
  if a * b ≤ USIZE_MAX then some (a * b) else none

/-- `usize::checked_div`: `None` exactly on division by zero. -/
def checked_div (a b : Nat) : Option Nat :=
  if b = 0 then none else some (a / b)

/-- `NumberType::is_prime` (src/base_types/numbers.rs, lines 38-47),
translated literally: starting from `a = 2`, while `a * a <= self`,
it tests `a % self == 0` (exactly as in the source) and on failure
increments `a`.  The recursion stops once `a * a > n`. -/
def is_prime_loop (n a : Nat) : Bool :=
  if a * a ≤ n then
    if a % n = 0 then false
    else is_prime_loop n (a + 1)
  else true
termination_by n + 1 - a
decreasing_by
  rename_i hle hne
  have ha : 1 ≤ a := by
    rcases Nat.eq_zero_or_pos a with h | h
    · subst h; simp [Nat.zero_mod] at hne
    · exact h
  have : a ≤ n := le_trans (Nat.le_mul_of_pos_left a ha) hle
  omega

/-- `NumberType::is_prime`: the primality test as written in the source. -/
def is_prime (n : Nat) : Bool := is_prime_loop n 2

/-- `NormalNumberSystem::add` (src/base_types/numbers.rs, lines 81-85):
guard `one > other && one != ZERO && other != ZERO`, then checked add. -/
def normal_add (one other : Nat) : Option Nat :=
  if one > other ∧ one ≠ 0 ∧ other ≠ 0 then checked_add one other else none

/-- `NormalNumberSystem::sub` (lines 87-91): same guard, checked sub. -/
def normal_sub (one other : Nat) : Option Nat :=
  if one > other ∧ one ≠ 0 ∧ other ≠ 0 then checked_sub one other else none

/-- `NormalNumberSystem::mul` (lines 93-97): guard
`one > other && one != ONE && other != ONE`, then checked mul. -/
def normal_mul (one other : Nat) : Option Nat :=
  if one > other ∧ one ≠ 1 ∧ other ≠ 1 then checked_mul one other else none

/-- `NormalNumberSystem::div` (lines 99-103): same guard as `mul`,
then checked div. -/
def normal_div (one other : Nat) : Option Nat :=
  if one > other ∧ one ≠ 1 ∧ other ≠ 1 then checked_div one other else none

/-- `ModularNumberSystem<T>` (src/base_types/numbers.rs, line 107): the
modulus together with the primality flag cached at construction time. -/
structure ModularNumberSystem where
  base : Nat
  primeFlag : Bool

/-- `ModularNumberSystem::new`: caches `base.is_prime()`. -/
def ModularNumberSystem.new (base : Nat) : ModularNumberSystem :=
  ⟨base, is_prime base⟩

/-- `ModularNumberSystem::in_range` / `t_into_range` (lines 114-126):
repeatedly subtracts the modulus while `t >= m` (the second loop of the
source never runs over an unsigned type).  Defined for `0 < m`, the only
case in which the source's loop terminates. -/
def t_into_range (m t : Nat) : Nat :=
  if 0 < m ∧ m ≤ t then t_into_range m (t - m) else t
termination_by t
decreasing_by omega

/-- `ModularNumberSystem::pow` (lines 127-137): `n` rounds of
`v = in_range(v * t)` starting from `v = ONE`. -/
def msys_pow (m t : Nat) : Nat → Nat
  | 0 => 1
  | n + 1 => t_into_range m (msys_pow m t n * t)

/-- `ModularNumberSystem::multiplicative_inverse` (lines 138-140):
`pow(t, m - 1)` — the exponent the source actually uses. -/
def multiplicative_inverse (m t : Nat) : Nat := msys_pow m t (m - 1)

/-- `ModularNumberSystem::add` (lines 144-148). -/
def msys_add (s : ModularNumberSystem) (one other : Nat) : Option Nat :=
  (checked_add one other).map (t_into_range s.base)

/-- `ModularNumberSystem::sub` (lines 150-158): `None` on equal operands,
otherwise `add(one, m - other)` via checked subtraction. -/
def msys_sub (s : ModularNumberSystem) (one other : Nat) : Option Nat :=
  if one ≠ other then (checked_sub s.base other).bind (msys_add s one)
  else none

/-- `ModularNumberSystem::mul` (lines 160-164). -/
def msys_mul (s : ModularNumberSystem) (one other : Nat) : Option Nat :=
  (checked_mul one other).map (t_into_range s.base)

/-- `ModularNumberSystem::div` (lines 166-173): `None` when the cached
primality flag is false, otherwise multiplication by
`multiplicative_inverse(other)`. -/
def msys_div (s : ModularNumberSystem) (one other : Nat) : Option Nat :=
  if !s.primeFlag then none
  else msys_mul s one (multiplicative_inverse s.base other)

/-! ## The thread-backed result channel (`src/timing/threaded.rs`, `src/timing.rs`)

`ThreadSender<T>(Option<SyncSender<T>>)` holds `Some(sender)` until
`set_done` replaces it by `None`.  The only channel-state fact `send`
consults, beyond its own option, is whether `std::sync::mpsc` reports the
receiver as disconnected (`SyncSender::send` returns `Err` exactly then);
we model the inner sender by the Boolean `receiver connected`.  In
`src/timing/threaded.rs` lines 10-26 a failed inner send prints the error
and calls `panic!()`; in `src/timing.rs` lines 58-71 it is `.unwrap()`,
which also panics.  A panic is modelled by the outcome `panicked`. -/

/-- Outcome of `ThreadSender::send`: a returned Boolean, or a panic. -/
inductive SendOutcome where
  | ok : Bool → SendOutcome
  | panicked : SendOutcome
deriving DecidableEq

/-- State of a `ThreadSender`: `some conn` while the inner `SyncSender`
is present (`conn` = receiver still connected), `none` after `set_done`. -/
def ThreadSenderState := Option Bool

/-- Result of one `send` call: the outcome, the sender state afterwards,
and the item delivered into the channel (if any). -/
structure SendResult (α : Type) where
  outcome : SendOutcome
  state : Option Bool
  delivered : Option α
deriving DecidableEq

/-- `ThreadSender::send` (src/timing/threaded.rs lines 11-22): with an
inner sender present it forwards to the channel — panicking if the
receiver has disconnected — and returns `true`; with `None` (after
`set_done`) it returns `false` without touching the channel. -/
def ts_send {α : Type} (s : Option Bool) (value : α) : SendResult α :=
  match s with
  | some conn =>
      if conn then ⟨.ok true, some conn, some value⟩
      else ⟨.panicked, some conn, none⟩
  | none => ⟨.ok false, none, none⟩

/-- `ThreadSender::set_done` (src/timing/threaded.rs lines 23-25):
unconditionally drops the inner sender (`self.0 = None`). -/
def ts_set_done (_ : Option Bool) : Option Bool := none

/-- `Drop for ThreadSender` (src/timing/threaded.rs lines 27-31): the
destructor just calls `set_done`. -/
def ts_drop (s : Option Bool) : Option Bool := ts_set_done s

/-! ## The permutation generators
(`src/generators/permutation_generator.rs`)

`UniquePermutationGenerator` is the iterative minimal-change (Heap)
permutation iterator over a `Vec`; the repository instantiates it at
index vectors `0..n`, so the embedding fixes the element type to `Nat`.
`PermutationGenerator` drives it over position ids `0..n` and skips
permutations in which a position id appears before its predecessor link
(the previous copy of the same value). -/

/-- `Vec::swap` on a list (both indices in bounds in every use below). -/
def lswap (l : List Nat) (i j : Nat) : List Nat :=
  (l.set i (l.getD j 0)).set j (l.getD i 0)

/-- The iterator state (src/generators/permutation_generator.rs,
lines 9-13): the array `a`, the control vector `c` and the scan index
`i` (`i = 0` marks the not-yet-started iterator). -/
structure UniquePermutationGenerator where
  a : List Nat
  c : List Nat
  i : Nat
deriving DecidableEq, Repr

/-- The `while` loop of `next` (lines 37-57): scan `c` upward from `i`;
at the first level whose counter is below its cap, swap (position `0`
for even levels, position `c[i]` for odd ones, against position `i`),
bump that counter, rewind the scan index to 1 and emit; levels passed
over have their counters reset to 0; reaching the end of the array means
the iteration is exhausted. -/
def upg_scan (a c : List Nat) (i : Nat) :
    Option (List Nat × List Nat × Nat) :=
  if i < a.length then
    if c.getD i 0 < i then
      let a' := if i % 2 = 0 then lswap a 0 i else lswap a (c.getD i 0) i
      some (a', c.set i (c.getD i 0 + 1), 1)
    else
      upg_scan a (c.set i 0) (i + 1)
  else none
termination_by a.length - i
decreasing_by omega

/-- `UniquePermutationGenerator::next` (lines 30-60): the first call
emits the array unchanged; later calls run the scan loop. -/
def UniquePermutationGenerator.next (s : UniquePermutationGenerator) :
    Option (List Nat × UniquePermutationGenerator) :=
  if s.i = 0 then some (s.a, ⟨s.a, s.c, 1⟩)
  else
    match upg_scan s.a s.c s.i with
    | some (a', c', i') => some (a', ⟨a', c', i'⟩)
    | none => none

/-- `UniquePermutationGenerator::new(it)` (lines 16-24): collected array,
zeroed control vector, scan index 0. -/
def UniquePermutationGenerator.new (a : List Nat) :
    UniquePermutationGenerator :=
  ⟨a, List.replicate a.length 0, 0⟩

/-- Drain the iterator: collect successive `next` results.  The fuel
argument only bounds the number of calls; `n! + 1` calls are always
enough to reach the exhausted state (proved below), which is how the
consumers of this `Iterator` implementation use it. -/
def UniquePermutationGenerator.run (s : UniquePermutationGenerator) :
    Nat → List (List Nat)
  | 0 => []
  | fuel + 1 =>
    match s.next with
    | none => []
    | some (out, s') => out :: s'.run fuel

/-- All outputs of `UniquePermutationGenerator::new(0..n)`. -/
def uniquePerms (n : Nat) : List (List Nat) :=
  UniquePermutationGenerator.run
    (UniquePermutationGenerator.new (List.range n)) (n.factorial + 1)

/-- `PermutationGenerator::from_iter` (lines 87-117), `elements` part:
position ids are assigned consecutively, `count` copies per
`(value, count)` pair, so the value of position id `i` is the `i`-th
entry of the concatenation of the replicated values. -/
def buildElems (ps : List (Nat × Nat)) : List Nat :=
  ps.flatMap fun p => List.replicate p.2 p.1

/-- Predecessor links for one pair's block of `count` consecutive
position ids starting at `base`: the first copy has no predecessor, each
later copy points at the preceding one. -/
def groupLinks (base count : Nat) : List (Option Nat) :=
  (List.range count).map fun k => if k = 0 then none else some (base + k - 1)

/-- `PermutationGenerator::from_iter`, `groups` part: the predecessor
link of every position id, in position-id order. -/
def buildGroups : Nat → List (Nat × Nat) → List (Option Nat)
  | _, [] => []
  | b, p :: rest => groupLinks b p.2 ++ buildGroups (b + p.2) rest

/-- The skip test of `PermutationGenerator::next` (lines 122-139): a
permutation `a` of position ids is kept iff no position id occurs in `a`
at an earlier output index than its predecessor link. -/
def canonical (groups : List (Option Nat)) (a : List Nat) : Bool :=
  a.all fun cur =>
    match groups.getD cur none with
    | none => true
    | some other => decide (a.indexOf other ≤ a.indexOf cur)

/-- The full output of `PermutationGenerator::from_iter(ps)` (lines
119-146): every index permutation produced by the inner
`UniquePermutationGenerator` over `0..n`, skipping non-canonical ones,
each mapped through `elements` to the value sequence. -/
def permgen_output (ps : List (Nat × Nat)) : List (List Nat) :=
  ((uniquePerms (ps.map Prod.snd).sum).filter (canonical (buildGroups 0 ps))).map
    fun a => a.map fun idx => (buildElems ps).getD idx 0

/-! ### Infrastructure for the Heap-machine proof -/

/-- A transposition of two indices, as a function on `Nat`. -/
def transp (a b p : Nat) : Nat := if p = a then b else if p = b then a else p

/-- The net index-source map of one complete level-`i` block of the Heap
machine: position `p` of the final array holds entry `sigmaF i p` of the
starting array (identity beyond `i`).  Even levels swap the ends;
level 1 is the plain transposition; higher odd levels have the hybrid
form proved in `block_spec` below. -/
def sigmaF (i : Nat) : Nat → Nat := fun p =>
  if i = 1 then transp 0 1 p
  else if i % 2 = 0 then transp 0 i p
  else
    if i < p then p
    else if p = 0 then i - 2
    else if p = i - 1 then i
    else if p = i then 0
    else if p = 1 then i - 1
    else p - 1

/-- One level-`I` step map of an even level: apply the net of the odd
level below, then the machine's `swap(0, I)`; the `k`-th sub-block start
array of an even level-`I` block is its `k`-th iterate. -/
def stepEven (I : Nat) : Nat → Nat := fun p => sigmaF (I - 1) (transp 0 I p)

/-- Values of the orbit of position `I` under `stepEven I` (the sources
of the entry at position `I` across even-level sub-blocks). -/
def orbEven (I k : Nat) : Nat :=
  if k = 0 then I
  else if k ≤ I - 3 then I - 2 - k
  else if k = I - 2 then I - 2
  else if k = I - 1 then I - 1
  else 0

/-- Index-source map of the `j`-th sub-block start array of an odd level
`I ≥ 3`: position `p` of the `j`-th sub-block start array holds entry
`tMapOdd I j p` of the block's starting array.  Closed form of the
composition of the machine's `swap(j, I)` steps with the even nets of
the level below, proved in `tMapOdd_step` and used level by level. -/
def tMapOdd (I j p : Nat) : Nat :=
  if j = 0 then p
  else if I < p then p
  else if p = 0 then (if j % 2 = 1 then I else 0)
  else if p = 1 then (if j = 1 then 1 else I - 1)
  else if p = I then (if j = 1 then I - 1 else if j = I then 0 else j - 1)
  else if p = I - 1 then (if j = I then I - 2 else if j % 2 = 1 then 0 else I)
  else if j ≤ p then p
  else p - 1

/-- The position swapped against position `I` when the scan hits level
`I` with counter value `j` (lines 44-48 of the source: position `0` for
even levels, the counter value for odd ones). -/
def swapSrc (I j : Nat) : Nat := if I % 2 = 0 then 0 else j

/-- Index-source map of the `j`-th sub-block start array of a level-`I`
block, both parities (even levels iterate the fixed step map, odd
levels follow the closed form). -/
def mfun (I j p : Nat) : Nat :=
  if I % 2 = 1 then tMapOdd I j p else (stepEven I)^[j] p

/-- Rearrange `t` by an index-source map: position `p` of the result
holds entry `f p` of `t`. -/
def applyMap (f : Nat → Nat) (t : List Nat) : List Nat :=
  (List.range t.length).map fun p => t.getD (f p) 0

/-- `y` is a rearrangement of the first `i + 1` entries of `x`, with the
rest identical. -/
def PrefixPerm (i : Nat) (x y : List Nat) : Prop :=
  (y.take (i + 1)).Perm (x.take (i + 1)) ∧ y.drop (i + 1) = x.drop (i + 1)

/-- The machine emits the outputs `os` on the way from state `s` to
state `s₂`: each step is one successful `next` call. -/
inductive Emits :
    UniquePermutationGenerator → List (List Nat) →
      UniquePermutationGenerator → Prop where
  | nil : ∀ s, Emits s [] s
  | cons : ∀ s o s₁ os s₂, s.next = some (o, s₁) → Emits s₁ os s₂ →
      Emits s (o :: os) s₂

/-- Digits `1..i` of the control vector are all zero. -/
def digitsZero (c : List Nat) (i : Nat) : Prop :=
  ∀ j, 1 ≤ j → j ≤ i → c.getD j 0 = 0

/-- `c'` is `c` with digits `1..i` saturated (digit `j` holding `j`)
and every other digit unchanged. -/
def digitsSat (i : Nat) (c c' : List Nat) : Prop :=
  c'.length = c.length ∧
  (∀ j, 1 ≤ j → j ≤ i → c'.getD j 0 = j) ∧
  (∀ j, j = 0 ∨ i < j → c'.getD j 0 = c.getD j 0)

/-! ### Basic lemmas: `getD`, `lswap`, `PrefixPerm`, `ArrMap`, `Emits` -/

theorem getD_set_self {c : List Nat} {p : Nat} (h : p < c.length) (v : Nat) :
    (c.set p v).getD p 0 = v := by
  simp [List.getD_eq_getElem?_getD, List.getElem?_set_self h]

theorem getD_set_ne {c : List Nat} {p q : Nat} (h : q ≠ p) (v : Nat) :
    (c.set q v).getD p 0 = c.getD p 0 := by
  simp [List.getD_eq_getElem?_getD, List.getElem?_set_ne h]

theorem getD_of_le {c : List Nat} {p : Nat} (h : c.length ≤ p) :
    c.getD p 0 = 0 := by
  simp [List.getD_eq_getElem?_getD, List.getElem?_eq_none h]

theorem ext_len_getD {x y : List Nat} (hl : x.length = y.length)
    (h : ∀ p, p < x.length → x.getD p 0 = y.getD p 0) : x = y := by
  apply List.ext_getElem hl
  intro n h1 h2
  have hn := h n h1
  rwa [List.getD_eq_getElem?_getD, List.getD_eq_getElem?_getD,
    List.getElem?_eq_getElem h1, List.getElem?_eq_getElem h2,
    Option.getD_some, Option.getD_some] at hn

theorem lswap_length (l : List Nat) (i j : Nat) :
    (lswap l i j).length = l.length := by
  simp [lswap]

theorem getD_lswap_right (l : List Nat) {i j : Nat} (hj : j < l.length) :
    (lswap l i j).getD j 0 = l.getD i 0 :=
  getD_set_self (by simpa using hj) _

theorem getD_lswap_left (l : List Nat) {i j : Nat} (hi : i < l.length)
    (hij : j ≠ i) : (lswap l i j).getD i 0 = l.getD j 0 := by
  rw [lswap, getD_set_ne hij, getD_set_self hi]

theorem getD_lswap_other (l : List Nat) {i j p : Nat} (hpi : i ≠ p)
    (hpj : j ≠ p) : (lswap l i j).getD p 0 = l.getD p 0 := by
  rw [lswap, getD_set_ne hpj, getD_set_ne hpi]

theorem cons_set_perm :
    ∀ (t : List Nat) (jj : Nat), jj < t.length → ∀ a : Nat,
      ((t.getD jj 0) :: (t.set jj a)).Perm (a :: t)
  | b :: s, 0, _, a => by simpa using List.Perm.swap a b s
  | b :: s, jj + 1, h, a => by
      have ih := cons_set_perm s jj (by simpa using h) a
      simp only [List.getD_cons_succ, List.set_cons_succ]
      exact (List.Perm.swap b _ _).trans ((ih.cons b).trans (List.Perm.swap a b s))

theorem lswap_perm :
    ∀ (l : List Nat) {i j : Nat}, i < j → j < l.length →
      (lswap l i j).Perm l
  | a :: t, 0, jj + 1, _, hj => by
      have h : jj < t.length := by simpa using hj
      simpa [lswap, List.getD_cons_succ] using cons_set_perm t jj h a
  | a :: t, i + 1, jj + 1, hij, hj => by
      have h : jj < t.length := by simpa using hj
      have ih := lswap_perm t (Nat.lt_of_succ_lt_succ hij) h
      simpa [lswap, List.getD_cons_succ] using ih.cons a

theorem getD_take {x : List Nat} {p n : Nat} (h : p < n) :
    (x.take n).getD p 0 = x.getD p 0 := by
  simp [List.getD_eq_getElem?_getD, List.getElem?_take_of_lt h]

theorem prefixPerm_rfl (i : Nat) (x : List Nat) : PrefixPerm i x x :=
  ⟨List.Perm.refl _, rfl⟩

theorem PrefixPerm.trans {i : Nat} {x y z : List Nat}
    (h1 : PrefixPerm i x y) (h2 : PrefixPerm i y z) : PrefixPerm i x z :=
  ⟨h2.1.trans h1.1, h2.2.trans h1.2⟩

theorem PrefixPerm.mono {i i' : Nat} {x y : List Nat} (hii : i ≤ i')
    (h : PrefixPerm i x y) : PrefixPerm i' x y := by
  obtain ⟨ht, hd⟩ := h
  constructor
  · have e1 : y.take (i' + 1) = y.take (i + 1) ++ (y.drop (i + 1)).take (i' - i) := by
      rw [← List.take_add]; congr 1; omega
    have e2 : x.take (i' + 1) = x.take (i + 1) ++ (x.drop (i + 1)).take (i' - i) := by
      rw [← List.take_add]; congr 1; omega
    rw [e1, e2, hd]
    exact ht.append_right _
  · have e1 : y.drop (i' + 1) = (y.drop (i + 1)).drop (i' - i) := by
      rw [List.drop_drop]; congr 1; omega
    have e2 : x.drop (i' + 1) = (x.drop (i + 1)).drop (i' - i) := by
      rw [List.drop_drop]; congr 1; omega
    rw [e1, e2, hd]

theorem PrefixPerm.perm {i : Nat} {x y : List Nat} (h : PrefixPerm i x y) :
    y.Perm x := by
  have hy := List.take_append_drop (i + 1) y
  have hx := List.take_append_drop (i + 1) x
  have hmid : y = y.take (i + 1) ++ x.drop (i + 1) := by rw [← h.2, hy]
  have hperm : (y.take (i + 1) ++ x.drop (i + 1)).Perm
      (x.take (i + 1) ++ x.drop (i + 1)) := h.1.append_right _
  rw [hmid, ← hx]
  simpa using hperm

theorem PrefixPerm.length_eq {i : Nat} {x y : List Nat}
    (h : PrefixPerm i x y) : y.length = x.length :=
  h.perm.length_eq

theorem prefixPerm_lswap {i a b : Nat} (x : List Nat) (hab : a < b)
    (hb : b ≤ i) (hil : i < x.length) : PrefixPerm i x (lswap x a b) := by
  constructor
  · have e : (lswap x a b).take (i + 1) = lswap (x.take (i + 1)) a b := by
      simp only [lswap, List.set_take]
      rw [getD_take (by omega), getD_take (by omega)]
    rw [e]
    exact lswap_perm (x.take (i + 1)) hab
      (by simpa [Nat.lt_min] using ⟨by omega, by omega⟩)
  · simp only [lswap, List.drop_set, if_pos (by omega : a < i + 1),
      if_pos (by omega : b < i + 1)]

theorem Emits.append {s s₁ s₂ : UniquePermutationGenerator}
    {os₁ os₂ : List (List Nat)} (h1 : Emits s os₁ s₁)
    (h2 : Emits s₁ os₂ s₂) : Emits s (os₁ ++ os₂) s₂ := by
  induction h1 with
  | nil => simpa using h2
  | cons s o s' os s'' hstep _ ih => exact Emits.cons _ _ _ _ _ hstep (ih h2)

theorem Emits.run_eq {s s' : UniquePermutationGenerator}
    {os : List (List Nat)} (h : Emits s os s')
    (hdone : s'.next = none) :
    ∀ {fuel : Nat}, os.length < fuel →
      UniquePermutationGenerator.run s fuel = os := by
  induction h with
  | nil =>
      intro fuel hf
      match fuel, hf with
      | fuel + 1, _ => simp [UniquePermutationGenerator.run, hdone]
  | cons s o s₁ os s₂ hstep _ ih =>
      intro fuel hf
      match fuel, hf with
      | fuel + 1, hf =>
          simp only [UniquePermutationGenerator.run, hstep]
          rw [ih hdone (by simpa using hf)]

theorem nodup_getD_ne {x : List Nat} (h : x.Nodup) {p q : Nat}
    (hp : p < x.length) (hq : q < x.length) (hpq : p ≠ q) :
    x.getD p 0 ≠ x.getD q 0 := by
  rw [List.getD_eq_getElem?_getD, List.getD_eq_getElem?_getD,
    List.getElem?_eq_getElem hp, List.getElem?_eq_getElem hq,
    Option.getD_some, Option.getD_some]
  intro he
  exact hpq ((h.getElem_inj_iff).mp he)

/-- Positions above `i` are untouched by a `PrefixPerm i` rearrangement. -/
theorem PrefixPerm.getD_high {i : Nat} {x y : List Nat}
    (h : PrefixPerm i x y) {p : Nat} (hp : i < p) :
    y.getD p 0 = x.getD p 0 := by
  have hd := h.2
  have e1 : y.getD p 0 = (y.drop (i + 1)).getD (p - (i + 1)) 0 := by
    simp [List.getD_eq_getElem?_getD, List.getElem?_drop]
    congr 2
    omega
  have e2 : x.getD p 0 = (x.drop (i + 1)).getD (p - (i + 1)) 0 := by
    simp [List.getD_eq_getElem?_getD, List.getElem?_drop]
    congr 2
    omega
  rw [e1, e2, hd]

/-- Scanning from `p`, a saturated run of digits `p..j-1` is zeroed and
the scan arrives at digit `j` unchanged otherwise. -/
theorem upg_scan_sat {a : List Nat} {j : Nat} (hj : j ≤ a.length) :
    ∀ {p : Nat} {c : List Nat}, p ≤ j → c.length = a.length →
      (∀ d, p ≤ d → d < j → c.getD d 0 = d) →
      ∃ c', c'.length = a.length ∧
        (∀ d, p ≤ d → d < j → c'.getD d 0 = 0) ∧
        (∀ d, d < p ∨ j ≤ d → c'.getD d 0 = c.getD d 0) ∧
        upg_scan a c p = upg_scan a c' j := by
  intro p c hpj hlen hsat
  by_cases hpj2 : p = j
  · subst hpj2
    exact ⟨c, hlen, fun d h1 h2 => by omega, fun d _ => rfl, rfl⟩
  · have hplt : p < j := by omega
    have hcp : c.getD p 0 = p := hsat p le_rfl hplt
    have step : upg_scan a c p = upg_scan a (c.set p 0) (p + 1) := by
      rw [upg_scan, if_pos (by omega : p < a.length), hcp]
      simp
    obtain ⟨c', h1, h2, h3, h4⟩ :=
      upg_scan_sat hj (p := p + 1) (c := c.set p 0) (by omega)
        (by simp [hlen])
        (fun d hd1 hd2 => by
          rw [getD_set_ne (by omega)]
          exact hsat d (by omega) hd2)
    refine ⟨c', h1, fun d hd1 hd2 => ?_, fun d hd => ?_, step.trans h4⟩
    · rcases Nat.eq_or_lt_of_le hd1 with h | h
      · rw [h3 d (Or.inl (by omega)), ← h, getD_set_self (by omega) 0]
      · exact h2 d (by omega) hd2
    · rw [h3 d (by omega), getD_set_ne (by omega)]
termination_by p => j - p

/-- Hitting an unsaturated digit: swap, bump the digit, emit. -/
theorem upg_scan_hit {a c : List Nat} {j : Nat} (hj : j < a.length)
    (hc : c.getD j 0 < j) :
    upg_scan a c j = some
      ((if j % 2 = 0 then lswap a 0 j else lswap a (c.getD j 0) j),
        c.set j (c.getD j 0 + 1), 1) := by
  rw [upg_scan, if_pos hj, if_pos hc]

/-- A fully saturated control vector exhausts the scan. -/
theorem upg_scan_none {a c : List Nat} {p : Nat} (hlen : c.length = a.length)
    (hsat : ∀ d, p ≤ d → d < a.length → c.getD d 0 = d) :
    upg_scan a c p = none := by
  by_cases hp : p ≤ a.length
  · obtain ⟨c', _, _, _, h4⟩ := upg_scan_sat le_rfl hp hlen hsat
    rw [h4, upg_scan]
    simp
  · rw [upg_scan, if_neg (by omega)]

/-- `next` on a started iterator is the scan loop. -/
theorem next_of_scan {a c : List Nat} {i : Nat} (hi : i ≠ 0)
    {a' c' : List Nat} {i' : Nat}
    (h : upg_scan a c i = some (a', c', i')) :
    UniquePermutationGenerator.next ⟨a, c, i⟩ = some (a', ⟨a', c', i'⟩) := by
  rw [UniquePermutationGenerator.next, if_neg hi]
  simp only [h]

/-- `next` on a started iterator with an exhausted scan. -/
theorem next_of_scan_none {a c : List Nat} {i : Nat} (hi : i ≠ 0)
    (h : upg_scan a c i = none) :
    UniquePermutationGenerator.next ⟨a, c, i⟩ = none := by
  rw [UniquePermutationGenerator.next, if_neg hi]
  simp only [h]

/-! ### Pointwise facts about the index-source maps -/

theorem transp_le {a b i p : Nat} (ha : a ≤ i) (hb : b ≤ i) (hp : p ≤ i) :
    transp a b p ≤ i := by
  unfold transp
  split_ifs <;> omega

theorem transp_beyond {a b i p : Nat} (ha : a ≤ i) (hb : b ≤ i)
    (hp : i < p) : transp a b p = p := by
  unfold transp
  split_ifs <;> omega

theorem transp_invol (a b p : Nat) : transp a b (transp a b p) = p := by
  unfold transp
  split_ifs <;> omega

theorem sigmaF_le {i p : Nat} (hp : p ≤ i) : sigmaF i p ≤ i := by
  unfold sigmaF transp
  split_ifs <;> omega

theorem sigmaF_beyond {i p : Nat} (hp : i < p) : sigmaF i p = p := by
  unfold sigmaF transp
  split_ifs <;> omega

theorem stepEven_beyond {I p : Nat} (hI : 2 ≤ I) (hp : I < p) :
    stepEven I p = p := by
  unfold stepEven
  rw [transp_beyond (by omega) (by omega) hp, sigmaF_beyond (by omega)]

theorem stepEven_le {I p : Nat} (hI : 2 ≤ I) (hIe : I % 2 = 0)
    (hp : p ≤ I) : stepEven I p ≤ I := by
  unfold stepEven sigmaF transp
  split_ifs <;> omega

theorem transp_fst (a b : Nat) : transp a b a = b := by
  unfold transp; split_ifs <;> first | contradiction | omega

theorem transp_snd (a b : Nat) : transp a b b = a := by
  unfold transp; split_ifs <;> first | contradiction | omega

theorem transp_other {a b p : Nat} (h1 : p ≠ a) (h2 : p ≠ b) :
    transp a b p = p := by
  unfold transp; split_ifs <;> first | contradiction | omega

theorem sig_odd_0 {i : Nat} (hodd : i % 2 = 1) (h3 : 3 ≤ i) :
    sigmaF i 0 = i - 2 := by
  unfold sigmaF transp; split_ifs <;> first | contradiction | omega

theorem sig_odd_1 {i : Nat} (hodd : i % 2 = 1) (h3 : 3 ≤ i) :
    sigmaF i 1 = i - 1 := by
  unfold sigmaF transp; split_ifs <;> first | contradiction | omega

theorem sig_odd_im1 {i : Nat} (hodd : i % 2 = 1) (h3 : 3 ≤ i) :
    sigmaF i (i - 1) = i := by
  unfold sigmaF transp; split_ifs <;> first | contradiction | omega

theorem sig_odd_i {i : Nat} (hodd : i % 2 = 1) (h3 : 3 ≤ i) :
    sigmaF i i = 0 := by
  unfold sigmaF transp; split_ifs <;> first | contradiction | omega

theorem sig_odd_mid {i p : Nat} (hodd : i % 2 = 1) (h2p : 2 ≤ p)
    (hpi : p ≤ i - 2) : sigmaF i p = p - 1 := by
  unfold sigmaF transp; split_ifs <;> first | contradiction | omega

theorem tm_j0 (I p : Nat) : tMapOdd I 0 p = p := by
  unfold tMapOdd; split_ifs <;> first | contradiction | omega

theorem tm_beyond {I j p : Nat} (h : I < p) : tMapOdd I j p = p := by
  unfold tMapOdd; split_ifs <;> first | contradiction | omega

theorem tm_le {I j p : Nat} (hp : p ≤ I) (hj : j ≤ I) : tMapOdd I j p ≤ I := by
  unfold tMapOdd; split_ifs <;> first | contradiction | omega

theorem tm_p0_odd {I j : Nat} (h1 : j % 2 = 1) (hI : 1 ≤ I) :
    tMapOdd I j 0 = I := by
  unfold tMapOdd; split_ifs <;> first | contradiction | omega

theorem tm_p0_even {I j : Nat} (h0 : j ≠ 0) (h1 : j % 2 = 0) :
    tMapOdd I j 0 = 0 := by
  unfold tMapOdd; split_ifs <;> first | contradiction | omega

theorem tm_p1_1 (I : Nat) : tMapOdd I 1 1 = 1 := by
  unfold tMapOdd; split_ifs <;> first | contradiction | omega

theorem tm_p1 {I j : Nat} (hj : 2 ≤ j) (hI : 2 ≤ I) :
    tMapOdd I j 1 = I - 1 := by
  unfold tMapOdd; split_ifs <;> first | contradiction | omega

theorem tm_at_I {I j : Nat} (h3 : 3 ≤ I) (hj : j ≤ I) :
    tMapOdd I j I =
      if j = 0 then I else if j = 1 then I - 1 else if j = I then 0
      else j - 1 := by
  unfold tMapOdd; split_ifs <;> first | contradiction | omega

theorem tm_pI_1 {I : Nat} (h3 : 3 ≤ I) : tMapOdd I 1 I = I - 1 := by
  rw [tm_at_I h3 (by omega), if_neg (by omega), if_pos rfl]

theorem tm_pI_last {I : Nat} (h3 : 3 ≤ I) : tMapOdd I I I = 0 := by
  unfold tMapOdd; split_ifs <;> first | contradiction | omega

theorem tm_pI_mid {I j : Nat} (hj : 2 ≤ j) (hjI : j ≠ I) (h3 : 3 ≤ I) :
    tMapOdd I j I = j - 1 := by
  unfold tMapOdd; split_ifs <;> first | contradiction | omega

theorem tm_pIm1_last {I : Nat} (h3 : 3 ≤ I) : tMapOdd I I (I - 1) = I - 2 := by
  unfold tMapOdd; split_ifs <;> first | contradiction | omega

theorem tm_pIm1_odd {I j : Nat} (h3 : 3 ≤ I) (hodd : j % 2 = 1) (hjI : j ≠ I) :
    tMapOdd I j (I - 1) = 0 := by
  unfold tMapOdd; split_ifs <;> first | contradiction | omega

theorem tm_pIm1_even {I j : Nat} (h3 : 3 ≤ I) (h0 : j ≠ 0) (heven : j % 2 = 0)
    (hjI : j ≠ I) : tMapOdd I j (I - 1) = I := by
  unfold tMapOdd; split_ifs <;> first | contradiction | omega

theorem tm_mid_le {I j p : Nat} (h2p : 2 ≤ p) (hpI : p ≤ I - 2) (hjp : j ≤ p)
    (h3 : 3 ≤ I) : tMapOdd I j p = p := by
  unfold tMapOdd; split_ifs <;> first | contradiction | omega

theorem tm_mid_gt {I j p : Nat} (h2p : 2 ≤ p) (hpI : p ≤ I - 2) (hjp : p < j) :
    tMapOdd I j p = p - 1 := by
  unfold tMapOdd; split_ifs <;> first | contradiction | omega

theorem tMapOdd_step {I j p : Nat} (hI : I % 2 = 1) (h3 : 3 ≤ I)
    (hj : j < I) :
    tMapOdd I (j + 1) p = tMapOdd I j (transp 0 (I - 1) (transp j I p)) := by
  by_cases hpj : p = j
  · subst hpj
    rw [transp_fst, transp_other (by omega) (by omega)]
    by_cases h0 : p = 0
    · rw [h0, tm_p0_odd (by omega) (by omega), tm_j0]
    · by_cases h1 : p = 1
      · rw [h1, tm_p1 (by omega) (by omega), tm_pI_1 h3]
      · by_cases hm : p = I - 1
        · rw [hm]
          have e1 : I - 1 + 1 = I := by omega
          rw [e1, tm_pIm1_last h3, tm_pI_mid (by omega) (by omega) h3]
          omega
        · rw [tm_mid_gt (by omega) (by omega) (by omega),
            tm_pI_mid (by omega) (by omega) h3]
  · by_cases hpI : p = I
    · rw [hpI, transp_snd]
      by_cases hj0 : j = 0
      · subst hj0
        rw [transp_fst, tm_pI_1 h3, tm_j0]
      · by_cases hjm : j = I - 1
        · rw [hjm, transp_snd]
          have e1 : I - 1 + 1 = I := by omega
          rw [e1, tm_pI_last h3, tm_p0_even (by omega) (by omega)]
        · rw [transp_other hj0 hjm]
          by_cases hj1 : j = 1
          · rw [hj1, tm_pI_mid (by omega) (by omega) h3, tm_p1_1]
          · rw [tm_pI_mid (by omega) (by omega) h3,
              tm_mid_le (by omega) (by omega) (by omega) h3]
            omega
    · rw [transp_other hpj hpI]
      by_cases hp0 : p = 0
      · subst hp0
        rw [transp_fst]
        by_cases hpar : j % 2 = 1
        · rw [tm_p0_even (by omega) (by omega), tm_pIm1_odd h3 hpar (by omega)]
        · rw [tm_p0_odd (by omega) (by omega),
            tm_pIm1_even h3 (by omega) (by omega) (by omega)]
      · by_cases hpm : p = I - 1
        · rw [hpm, transp_snd]
          by_cases hj0 : j = 0
          · subst hj0
            rw [tm_pIm1_odd h3 (by omega) (by omega), tm_j0]
          · by_cases hpar : j % 2 = 1
            · rw [tm_pIm1_even h3 (by omega) (by omega) (by omega),
                tm_p0_odd hpar (by omega)]
            · rw [tm_pIm1_odd h3 (by omega) (by omega),
                tm_p0_even hj0 (by omega)]
        · rw [transp_other hp0 hpm]
          by_cases hp1 : p = 1
          · rw [hp1]
            by_cases hj0 : j = 0
            · subst hj0
              rw [tm_p1_1, tm_j0]
            · rw [tm_p1 (by omega) (by omega), tm_p1 (by omega) (by omega)]
          · by_cases hbig : I < p
            · rw [tm_beyond hbig, tm_beyond hbig]
            · by_cases hjp : j < p
              · rw [tm_mid_le (by omega) (by omega) (by omega) h3,
                  tm_mid_le (by omega) (by omega) (by omega) h3]
              · rw [tm_mid_gt (by omega) (by omega) (by omega),
                  tm_mid_gt (by omega) (by omega) (by omega)]

theorem tMapOdd_final {I p : Nat} (hI : I % 2 = 1) (h3 : 3 ≤ I) :
    sigmaF I p = tMapOdd I I (transp 0 (I - 1) p) := by
  by_cases hp0 : p = 0
  · rw [hp0, transp_fst, tm_pIm1_last h3, sig_odd_0 hI h3]
  · by_cases hpm : p = I - 1
    · rw [hpm, transp_snd, tm_p0_odd hI (by omega), sig_odd_im1 hI h3]
    · rw [transp_other hp0 hpm]
      by_cases hp1 : p = 1
      · rw [hp1, sig_odd_1 hI h3, tm_p1 (by omega) (by omega)]
      · by_cases hpI : p = I
        · rw [hpI, sig_odd_i hI h3, tm_pI_last h3]
        · by_cases hbig : I < p
          · rw [sigmaF_beyond hbig, tm_beyond hbig]
          · rw [sig_odd_mid hI (by omega) (by omega),
              tm_mid_gt (by omega) (by omega) (by omega)]

theorem tMapOdd_I_inj {I j j' : Nat} (hI : I % 2 = 1) (h3 : 3 ≤ I)
    (hj : j ≤ I) (hj' : j' ≤ I)
    (h : tMapOdd I j I = tMapOdd I j' I) : j = j' := by
  rw [tm_at_I h3 hj, tm_at_I h3 hj'] at h
  split_ifs at h <;> omega

theorem orb_eval_0 (I : Nat) : orbEven I 0 = I := by
  unfold orbEven
  simp

theorem orbEven_le {I k : Nat} : orbEven I k ≤ I := by
  unfold orbEven
  split_ifs <;> first | contradiction | omega

theorem orbEven_inj {I j j' : Nat} (hI : 2 ≤ I) (hj : j ≤ I) (hj' : j' ≤ I)
    (h : orbEven I j = orbEven I j') : j = j' := by
  unfold orbEven at h
  split_ifs at h <;> omega

theorem orbEven_surj {I q : Nat} (hI : 2 ≤ I) (hq : q ≤ I) :
    ∃ k, k ≤ I ∧ orbEven I k = q := by
  by_cases h1 : q = I
  · exact ⟨0, by omega, by rw [orb_eval_0, h1]⟩
  · by_cases h2 : q = I - 1
    · refine ⟨I - 1, by omega, ?_⟩
      unfold orbEven
      split_ifs <;> omega
    · by_cases h4 : q = 0
      · refine ⟨I, by omega, ?_⟩
        unfold orbEven
        split_ifs <;> omega
      · by_cases h3 : q = I - 2
        · refine ⟨I - 2, by omega, ?_⟩
          unfold orbEven
          split_ifs <;> omega
        · refine ⟨I - 2 - q, by omega, ?_⟩
          unfold orbEven
          split_ifs <;> omega

theorem orbEven_step {I k : Nat} (hpar : I % 2 = 0) (hI : 2 ≤ I)
    (hk : k < I) : stepEven I (orbEven I k) = orbEven I (k + 1) := by
  by_cases hI2 : I = 2
  · subst hI2
    have hk01 : k = 0 ∨ k = 1 := by omega
    rcases hk01 with h | h <;> subst h <;> decide
  · have hodd : (I - 1) % 2 = 1 := by omega
    by_cases hk0 : k = 0
    · subst hk0
      rw [orb_eval_0]
      unfold stepEven
      rw [transp_snd, sig_odd_0 hodd (by omega)]
      unfold orbEven
      split_ifs <;> first | contradiction | omega
    · by_cases hk3 : k ≤ I - 3
      · have hv : orbEven I k = I - 2 - k := by
          unfold orbEven
          split_ifs <;> first | contradiction | omega
        rw [hv]
        unfold stepEven
        rw [transp_other (by omega) (by omega)]
        by_cases hk3e : k = I - 3
        · rw [show I - 2 - k = 1 by omega, sig_odd_1 hodd (by omega)]
          unfold orbEven
          split_ifs <;> first | contradiction | omega
        · rw [sig_odd_mid hodd (by omega) (by omega)]
          unfold orbEven
          split_ifs <;> first | contradiction | omega
      · by_cases hk2 : k = I - 2
        · have hv : orbEven I k = I - 2 := by
            unfold orbEven
            split_ifs <;> first | contradiction | omega
          rw [hv]
          unfold stepEven
          rw [transp_other (by omega) (by omega),
            show I - 2 = I - 1 - 1 by omega, sig_odd_im1 hodd (by omega)]
          unfold orbEven
          split_ifs <;> first | contradiction | omega
        · have hv : orbEven I k = I - 1 := by
            unfold orbEven
            split_ifs <;> first | contradiction | omega
          rw [hv]
          unfold stepEven
          rw [transp_other (by omega) (by omega), sig_odd_i hodd (by omega)]
          unfold orbEven
          split_ifs <;> first | contradiction | omega

theorem stepEven_iterate_orb {I : Nat} (hpar : I % 2 = 0) (hI : 2 ≤ I) :
    ∀ m k, k + m ≤ I → (stepEven I)^[m] (orbEven I k) = orbEven I (k + m)
  | 0, k, _ => by simp
  | m + 1, k, h => by
      rw [Function.iterate_succ_apply, orbEven_step hpar hI (by omega),
        stepEven_iterate_orb hpar hI m (k + 1) (by omega)]
      congr 1
      omega

theorem stepEven_wrap {I : Nat} (hpar : I % 2 = 0) (hI : 2 ≤ I) :
    stepEven I (orbEven I I) = orbEven I 0 := by
  have h1 : orbEven I I = 0 := by
    unfold orbEven
    split_ifs <;> omega
  rw [h1, orb_eval_0]
  unfold stepEven
  rw [transp_fst, sigmaF_beyond (by omega)]

theorem stepEven_cycle {I q : Nat} (hpar : I % 2 = 0) (hI : 2 ≤ I)
    (hq : q ≤ I) : (stepEven I)^[I + 1] q = q := by
  obtain ⟨k, hk, hor⟩ := orbEven_surj hI hq
  subst hor
  have e1 : (stepEven I)^[I - k] (orbEven I k) = orbEven I I := by
    rw [stepEven_iterate_orb hpar hI (I - k) k (by omega)]
    congr 1
    omega
  have e2 : I + 1 = k + (1 + (I - k)) := by omega
  rw [e2, Function.iterate_add_apply, Function.iterate_add_apply, e1,
    Function.iterate_one, stepEven_wrap hpar hI,
    stepEven_iterate_orb hpar hI k 0 (by omega)]
  simp

theorem stepEven_iterate_le {I q : Nat} (hpar : I % 2 = 0) (hI : 2 ≤ I)
    (hq : q ≤ I) : ∀ m, (stepEven I)^[m] q ≤ I
  | 0 => by simpa using hq
  | m + 1 => by
      rw [Function.iterate_succ_apply']
      exact stepEven_le hI hpar (stepEven_iterate_le hpar hI hq m)

theorem stepEven_iterate_beyond {I q : Nat} (hI : 2 ≤ I) (hq : I < q) :
    ∀ m, (stepEven I)^[m] q = q
  | 0 => by simp
  | m + 1 => by
      rw [Function.iterate_succ_apply', stepEven_iterate_beyond hI hq m,
        stepEven_beyond hI hq]

theorem stepEven_inj {I a b : Nat} (hpar : I % 2 = 0) (hI : 2 ≤ I)
    (ha : a ≤ I) (hb : b ≤ I) (h : stepEven I a = stepEven I b) : a = b := by
  have e1 := stepEven_cycle hpar hI ha
  have e2 := stepEven_cycle hpar hI hb
  rw [← e1, ← e2, Function.iterate_add_apply, Function.iterate_add_apply,
    Function.iterate_one, h]

theorem sigmaF_even {i : Nat} (h : i % 2 = 0) (p : Nat) :
    sigmaF i p = transp 0 i p := by
  unfold sigmaF
  rw [if_neg (by omega), if_pos h]

theorem stepEven_final {I p : Nat} (hpar : I % 2 = 0) (hI : 2 ≤ I) :
    sigmaF I p = (stepEven I)^[I] (sigmaF (I - 1) p) := by
  by_cases hp : p ≤ I
  · have hs : sigmaF (I - 1) p ≤ I := by
      by_cases hpi : p ≤ I - 1
      · exact le_trans (sigmaF_le hpi) (by omega)
      · rw [sigmaF_beyond (by omega)]
        omega
    have hval : sigmaF I p ≤ I := sigmaF_le hp
    apply stepEven_inj hpar hI hval (stepEven_iterate_le hpar hI hs I)
    have e1 : stepEven I ((stepEven I)^[I] (sigmaF (I - 1) p)) =
        (stepEven I)^[I + 1] (sigmaF (I - 1) p) := by
      rw [Function.iterate_succ_apply']
    rw [e1, stepEven_cycle hpar hI hs]
    conv_lhs => rw [sigmaF_even hpar]
    unfold stepEven
    rw [transp_invol]
  · rw [sigmaF_beyond (by omega), sigmaF_beyond (by omega : I - 1 < p),
      stepEven_iterate_beyond hI (by omega)]

theorem mfun_zero (I p : Nat) : mfun I 0 p = p := by
  unfold mfun
  split_ifs
  · exact tm_j0 I p
  · simp

theorem mfun_beyond {I j p : Nat} (hI : 2 ≤ I) (hp : I < p) :
    mfun I j p = p := by
  unfold mfun
  split_ifs
  · exact tm_beyond hp
  · exact stepEven_iterate_beyond hI hp j

theorem mfun_le {I j p : Nat} (hI : 2 ≤ I) (hj : j ≤ I) (hp : p ≤ I) :
    mfun I j p ≤ I := by
  unfold mfun
  split_ifs with h
  · exact tm_le hp hj
  · exact stepEven_iterate_le (by omega) hI hp j

theorem mfun_step {I j p : Nat} (hI : 2 ≤ I) (hj : j < I) :
    mfun I (j + 1) p = mfun I j (sigmaF (I - 1) (transp (swapSrc I j) I p)) := by
  unfold mfun swapSrc
  by_cases hpar : I % 2 = 1
  · rw [if_pos hpar, if_pos hpar, if_neg (by omega),
      sigmaF_even (by omega : (I - 1) % 2 = 0)]
    exact tMapOdd_step hpar (by omega) hj
  · rw [if_neg hpar, if_neg hpar, if_pos (by omega),
      Function.iterate_succ_apply]
    rfl

theorem mfun_final {I p : Nat} (hI : 2 ≤ I) :
    sigmaF I p = mfun I I (sigmaF (I - 1) p) := by
  unfold mfun
  by_cases hpar : I % 2 = 1
  · rw [if_pos hpar, sigmaF_even (by omega : (I - 1) % 2 = 0)]
    exact tMapOdd_final hpar (by omega)
  · rw [if_neg hpar]
    exact stepEven_final (by omega) hI

theorem mfun_I_inj {I j j' : Nat} (hI : 2 ≤ I) (hj : j ≤ I) (hj' : j' ≤ I)
    (h : mfun I j I = mfun I j' I) : j = j' := by
  unfold mfun at h
  split_ifs at h with hpar
  · exact tMapOdd_I_inj hpar (by omega) hj hj' h
  · have e1 := stepEven_iterate_orb (by omega) hI j 0 (by omega)
    have e2 := stepEven_iterate_orb (by omega) hI j' 0 (by omega)
    rw [orb_eval_0] at e1 e2
    simp only [Nat.zero_add] at e1 e2
    exact orbEven_inj hI hj hj' ((e1.symm.trans h).trans e2)

/-! ### Rearrangement by an index-source map -/

theorem applyMap_length (f : Nat → Nat) (t : List Nat) :
    (applyMap f t).length = t.length := by
  simp [applyMap]

theorem getD_applyMap {f : Nat → Nat} {t : List Nat} {p : Nat}
    (hp : p < t.length) : (applyMap f t).getD p 0 = t.getD (f p) 0 := by
  simp only [applyMap, List.getD_eq_getElem?_getD, List.getElem?_map]
  rw [List.getElem?_range hp]
  simp

theorem applyMap_eq_self {f : Nat → Nat} {t : List Nat}
    (h : ∀ p, p < t.length → f p = p) : applyMap f t = t := by
  apply ext_len_getD (applyMap_length f t)
  intro p hp
  rw [applyMap_length] at hp
  rw [getD_applyMap hp, h p hp]

theorem applyMap_applyMap {f g : Nat → Nat} {t : List Nat}
    (hf : ∀ q, t.length ≤ q → f q = q) :
    applyMap g (applyMap f t) = applyMap (fun p => f (g p)) t := by
  apply ext_len_getD (by simp [applyMap_length])
  intro p hp
  rw [applyMap_length, applyMap_length] at hp
  rw [getD_applyMap (by rw [applyMap_length]; exact hp), getD_applyMap hp]
  by_cases hgp : g p < t.length
  · rw [getD_applyMap hgp]
  · rw [getD_of_le (by rw [applyMap_length]; omega), hf (g p) (by omega),
      getD_of_le (by omega)]

theorem applyMap_congr {f g : Nat → Nat} {t : List Nat}
    (h : ∀ p, p < t.length → f p = g p) : applyMap f t = applyMap g t := by
  unfold applyMap
  apply List.map_congr_left
  intro a ha
  rw [h a (List.mem_range.mp ha)]

/-- `Vec::swap` as a rearrangement by a transposition. -/
theorem lswap_eq_applyMap {t : List Nat} {a b : Nat} (ha : a < t.length)
    (hb : b < t.length) (hab : a ≠ b) :
    lswap t a b = applyMap (transp a b) t := by
  apply ext_len_getD (by rw [lswap_length, applyMap_length])
  intro p hp
  rw [lswap_length] at hp
  rw [getD_applyMap hp]
  by_cases hpa : p = a
  · subst hpa
    rw [transp_fst, getD_lswap_left t ha (Ne.symm hab)]
  · by_cases hpb : p = b
    · subst hpb
      rw [transp_snd, getD_lswap_right t hb]
    · rw [transp_other hpa hpb,
        getD_lswap_other t (fun h => hpa h.symm) (fun h => hpb h.symm)]

/-! ### The behaviour of one complete level-`I` block -/

/-- Contract of a complete level-`I` block of the Heap machine, run from
a state whose digits `1..I` are zero: it emits the remaining
`(I+1)! - 1` arrays of the block, ends with digits `1..I` saturated and
the array rearranged by the net `sigmaF I`, every emitted array is a
rearrangement of the first `I + 1` entries, and (for a duplicate-free
prefix) the start array and the emitted arrays are pairwise distinct. -/
def BlockSpec (I : Nat) : Prop :=
  ∀ t c : List Nat, c.length = t.length → I + 1 ≤ t.length → digitsZero c I →
    ∃ outs c',
      Emits ⟨t, c, 1⟩ outs ⟨applyMap (sigmaF I) t, c', 1⟩ ∧
      digitsSat I c c' ∧
      outs.length + 1 = (I + 1).factorial ∧
      (∀ z ∈ outs, PrefixPerm I t z) ∧
      PrefixPerm I t (applyMap (sigmaF I) t) ∧
      ((t.take (I + 1)).Nodup → (t :: outs).Nodup)

theorem blockSpec_one : BlockSpec 1 := by
  intro t c hlen hI hdz
  have hc1 : c.getD 1 0 = 0 := hdz 1 le_rfl le_rfl
  have hscan := @upg_scan_hit t c 1
    (show 1 < t.length by omega) (show c.getD 1 0 < 1 by omega)
  rw [if_neg (show ¬(1 % 2 = 0) by omega), hc1] at hscan
  have hnext := next_of_scan (show (1 : Nat) ≠ 0 by omega) hscan
  have hfin : applyMap (sigmaF 1) t = lswap t 0 1 := by
    rw [lswap_eq_applyMap (show 0 < t.length by omega)
      (show 1 < t.length by omega) (by omega)]
    exact applyMap_congr fun p _ => rfl
  have hpp : PrefixPerm 1 t (lswap t 0 1) :=
    prefixPerm_lswap t (by omega) le_rfl (by omega)
  refine ⟨[lswap t 0 1], c.set 1 (0 + 1), ?_, ?_, rfl, ?_, ?_, ?_⟩
  · rw [hfin]
    exact Emits.cons _ _ _ _ _ hnext (Emits.nil _)
  · refine ⟨by simp, fun j h1 h2 => ?_, fun j hj => ?_⟩
    · have hj1 : j = 1 := by omega
      subst hj1
      rw [getD_set_self (by omega) _]
    · rw [getD_set_ne (by omega) _]
  · intro z hz
    rw [List.mem_singleton] at hz
    subst hz
    exact hpp
  · rw [hfin]
    exact hpp
  · intro hnd
    have h2 : (t.take 2).length = 2 := by
      rw [List.length_take]
      omega
    have hne := @nodup_getD_ne (t.take 2) hnd 0 1 (by omega) (by omega)
      (by omega)
    rw [getD_take (by omega), getD_take (by omega)] at hne
    refine List.nodup_cons.mpr ⟨?_, List.nodup_singleton _⟩
    rw [List.mem_singleton]
    intro he
    have hg : t.getD 1 0 = (lswap t 0 1).getD 1 0 := by rw [← he]
    rw [getD_lswap_right t (by omega)] at hg
    exact hne hg.symm

/-- Inner induction for the block contract: from the `j`-th sub-block
start of a level-`I` block (with `K` swaps at level `I` remaining), the
machine finishes the block as described by `BlockSpec`, and every
emitted array takes its position-`I` entry from one of the remaining
sub-block sources. -/
theorem block_inner {I : Nat} (h2 : 2 ≤ I) (ih : BlockSpec (I - 1)) :
    ∀ K j, j + K = I → ∀ t c : List Nat,
      c.length = t.length → I + 1 ≤ t.length →
      digitsZero c (I - 1) → c.getD I 0 = j →
      PrefixPerm I t (applyMap (mfun I j) t) →
      ∃ outs c',
        Emits ⟨applyMap (mfun I j) t, c, 1⟩ outs
          ⟨applyMap (sigmaF I) t, c', 1⟩ ∧
        c'.length = c.length ∧
        (∀ q, 1 ≤ q → q ≤ I → c'.getD q 0 = q) ∧
        (∀ q, q = 0 ∨ I < q → c'.getD q 0 = c.getD q 0) ∧
        outs.length + 1 = (K + 1) * I.factorial ∧
        (∀ z ∈ outs, PrefixPerm I t z) ∧
        PrefixPerm I t (applyMap (sigmaF I) t) ∧
        (∀ z ∈ applyMap (mfun I j) t :: outs, ∃ j', j ≤ j' ∧ j' ≤ I ∧
          z.getD I 0 = t.getD (mfun I j' I) 0) ∧
        ((t.take (I + 1)).Nodup → (applyMap (mfun I j) t :: outs).Nodup) := by
  have eI : I - 1 + 1 = I := by omega
  intro K
  induction K with
  | zero =>
      intro j hjK t c hlen hn hdz hcI hpp
      have hj : j = I := by omega
      have htlen : (applyMap (mfun I j) t).length = t.length :=
        applyMap_length _ t
      obtain ⟨outs0, c'', hEm, hSat, hCount, hPP, hPPfin, hND⟩ :=
        ih (applyMap (mfun I j) t) c (by omega) (by omega)
          (fun d h1 h₂ => hdz d h1 h₂)
      rw [eI] at hCount hND
      have hu : applyMap (sigmaF (I - 1)) (applyMap (mfun I j) t) =
          applyMap (fun p => mfun I j (sigmaF (I - 1) p)) t :=
        applyMap_applyMap fun q hq => mfun_beyond h2 (by omega)
      have hfin : applyMap (sigmaF (I - 1)) (applyMap (mfun I j) t) =
          applyMap (sigmaF I) t := by
        rw [hu]
        refine applyMap_congr fun p _ => ?_
        rw [hj]
        exact (mfun_final h2).symm
      rw [hfin] at hEm hPPfin
      refine ⟨outs0, c'', hEm, ?_, ?_, ?_, by simpa using hCount, ?_, ?_,
        ?_, ?_⟩
      · exact hSat.1
      · intro q h1q hqI
        by_cases hq : q ≤ I - 1
        · exact hSat.2.1 q h1q hq
        · have hqI2 : q = I := by omega
          rw [hqI2, hSat.2.2 I (Or.inr (by omega)), hcI]
          omega
      · intro q hq
        exact hSat.2.2 q (by omega)
      · intro z hz
        exact hpp.trans ((hPP z hz).mono (by omega))
      · exact hpp.trans (hPPfin.mono (by omega))
      · intro z hz
        rcases List.mem_cons.mp hz with hz | hz
        · subst hz
          exact ⟨j, le_rfl, by omega, getD_applyMap (by omega)⟩
        · refine ⟨j, le_rfl, by omega, ?_⟩
          rw [(hPP z hz).getD_high (by omega), getD_applyMap (by omega)]
      · intro hnd
        have hndj : ((applyMap (mfun I j) t).take (I + 1)).Nodup :=
          hpp.1.nodup_iff.mpr hnd
        apply hND
        have e1 : (applyMap (mfun I j) t).take I =
            ((applyMap (mfun I j) t).take (I + 1)).take I := by
          rw [List.take_take, min_eq_left (by omega)]
        rw [e1]
        exact List.Nodup.sublist (List.take_sublist _ _) hndj
  | succ K ihK =>
      intro j hjK t c hlen hn hdz hcI hpp
      have hj : j < I := by omega
      have htlen : (applyMap (mfun I j) t).length = t.length :=
        applyMap_length _ t
      obtain ⟨outs0, c'', hEm, hSat, hCount, hPP, hPPfin, hND⟩ :=
        ih (applyMap (mfun I j) t) c (by omega) (by omega)
          (fun d h1 h₂ => hdz d h1 h₂)
      rw [eI] at hCount hND
      have hu : applyMap (sigmaF (I - 1)) (applyMap (mfun I j) t) =
          applyMap (fun p => mfun I j (sigmaF (I - 1) p)) t :=
        applyMap_applyMap fun q hq => mfun_beyond h2 (by omega)
      have hulen : (applyMap (sigmaF (I - 1)) (applyMap (mfun I j) t)).length
          = t.length := by
        rw [applyMap_length, applyMap_length]
      obtain ⟨c₃, hc₃len, hc₃zero, hc₃keep, hscan_eq⟩ :=
        @upg_scan_sat (applyMap (sigmaF (I - 1)) (applyMap (mfun I j) t)) I
          (by omega) 1 c'' (by omega) (by rw [hulen]; rw [hSat.1]; omega)
          (fun d hd1 hd2 => hSat.2.1 d hd1 (by omega))
      have hc₃I : c₃.getD I 0 = j := by
        rw [hc₃keep I (Or.inr le_rfl), hSat.2.2 I (Or.inr (by omega)), hcI]
      have hhit := @upg_scan_hit
        (applyMap (sigmaF (I - 1)) (applyMap (mfun I j) t)) c₃ I
        (by omega) (by rw [hc₃I]; omega)
      rw [hc₃I] at hhit
      have hsrc : swapSrc I j < I := by
        unfold swapSrc
        split_ifs <;> omega
      have hsw : (if I % 2 = 0
            then lswap (applyMap (sigmaF (I - 1)) (applyMap (mfun I j) t)) 0 I
            else lswap (applyMap (sigmaF (I - 1)) (applyMap (mfun I j) t)) j I)
          = lswap (applyMap (sigmaF (I - 1)) (applyMap (mfun I j) t))
              (swapSrc I j) I := by
        unfold swapSrc
        split_ifs <;> rfl
      rw [hsw] at hhit
      have hnext2 := next_of_scan (show (1 : Nat) ≠ 0 by omega)
        (hscan_eq.symm ▸ hhit)
      have e_t1 : lswap (applyMap (sigmaF (I - 1)) (applyMap (mfun I j) t))
          (swapSrc I j) I = applyMap (mfun I (j + 1)) t := by
        rw [lswap_eq_applyMap (by omega) (by omega) (by omega), hu,
          applyMap_applyMap (fun q hq => by
            rw [sigmaF_beyond (by omega)]
            exact mfun_beyond h2 (by omega))]
        exact applyMap_congr fun p _ => (mfun_step h2 hj).symm
      have hEmStep : Emits ⟨applyMap (sigmaF (I - 1)) (applyMap (mfun I j) t),
          c'', 1⟩ [applyMap (mfun I (j + 1)) t]
          ⟨applyMap (mfun I (j + 1)) t, c₃.set I (j + 1), 1⟩ := by
        rw [← e_t1]
        exact Emits.cons _ _ _ _ _ hnext2 (Emits.nil _)
      have hppu : PrefixPerm I t
          (applyMap (sigmaF (I - 1)) (applyMap (mfun I j) t)) :=
        hpp.trans (hPPfin.mono (by omega))
      have hppt1 : PrefixPerm I t (applyMap (mfun I (j + 1)) t) := by
        rw [← e_t1]
        exact hppu.trans (prefixPerm_lswap _ hsrc le_rfl (by rw [hulen]; omega))
      obtain ⟨outs', c₅, hEm', hc₅len, hc₅sat, hc₅keep, hCount', hPP',
          hPPfin', hposI', hND'⟩ :=
        ihK (j + 1) (by omega) t (c₃.set I (j + 1))
          (by rw [List.length_set, hc₃len, hulen])
          hn
          (fun d h1 h₂ => by
            rw [getD_set_ne (by omega) _]
            exact hc₃zero d h1 (by omega))
          (by
            rw [getD_set_self (by rw [hc₃len, hulen]; omega) _])
          hppt1
      refine ⟨outs0 ++ applyMap (mfun I (j + 1)) t :: outs', c₅, ?_, ?_, ?_,
        ?_, ?_, ?_, hPPfin', ?_, ?_⟩
      · exact Emits.append hEm (Emits.append hEmStep hEm')
      · rw [hc₅len, List.length_set, hc₃len, hulen, ← hlen]
      · exact hc₅sat
      · intro q hq
        rw [hc₅keep q hq, getD_set_ne (by omega) _, hc₃keep q (by omega),
          hSat.2.2 q (by omega)]
      · rw [List.length_append, List.length_cons]
        have e : (K + 1 + 1) * I.factorial
            = (K + 1) * I.factorial + I.factorial := by ring
        omega
      · intro z hz
        rcases List.mem_append.mp hz with hz | hz
        · exact hpp.trans ((hPP z hz).mono (by omega))
        · rcases List.mem_cons.mp hz with hz | hz
          · subst hz
            exact hppt1
          · exact hPP' z hz
      · intro z hz
        rcases List.mem_cons.mp hz with hz | hz
        · subst hz
          exact ⟨j, le_rfl, by omega, getD_applyMap (by omega)⟩
        · rcases List.mem_append.mp hz with hz | hz
          · refine ⟨j, le_rfl, by omega, ?_⟩
            rw [(hPP z hz).getD_high (by omega), getD_applyMap (by omega)]
          · obtain ⟨j', hjj', hj'I, he⟩ := hposI' z hz
            exact ⟨j', by omega, hj'I, he⟩
      · intro hnd
        have goal_eq : applyMap (mfun I j) t ::
            (outs0 ++ applyMap (mfun I (j + 1)) t :: outs')
            = (applyMap (mfun I j) t :: outs0) ++
              (applyMap (mfun I (j + 1)) t :: outs') := by
          rw [List.cons_append]
        rw [goal_eq, List.nodup_append]
        have hndj : ((applyMap (mfun I j) t).take (I + 1)).Nodup :=
          hpp.1.nodup_iff.mpr hnd
        have htklen : (t.take (I + 1)).length = I + 1 := by
          rw [List.length_take]
          omega
        refine ⟨?_, hND' hnd, ?_⟩
        · apply hND
          have e1 : (applyMap (mfun I j) t).take I =
              ((applyMap (mfun I j) t).take (I + 1)).take I := by
            rw [List.take_take, min_eq_left (by omega)]
          rw [e1]
          exact List.Nodup.sublist (List.take_sublist _ _) hndj
        · intro z hz1 hz2
          have hval1 : z.getD I 0 = t.getD (mfun I j I) 0 := by
            rcases List.mem_cons.mp hz1 with hz1 | hz1
            · subst hz1
              exact getD_applyMap (by omega)
            · rw [(hPP z hz1).getD_high (by omega), getD_applyMap (by omega)]
          obtain ⟨j', hjj', hj'I, hval2⟩ := hposI' z hz2
          have hne : mfun I j I ≠ mfun I j' I := by
            intro he
            have := mfun_I_inj h2 (by omega) hj'I he
            omega
          have h1le : mfun I j I ≤ I := mfun_le h2 (by omega) le_rfl
          have h2le : mfun I j' I ≤ I := mfun_le h2 hj'I le_rfl
          have hvne := @nodup_getD_ne (t.take (I + 1)) hnd
            (mfun I j I) (mfun I j' I) (by omega) (by omega) hne
          rw [getD_take (by omega), getD_take (by omega)] at hvne
          exact hvne (hval1 ▸ hval2 ▸ rfl)

/-- The block contract holds at every level `I ≥ 1`. -/
theorem blockSpec_all : ∀ I, 1 ≤ I → BlockSpec I := by
  intro I
  induction I with
  | zero => intro h; exact absurd h (by omega)
  | succ n ihn =>
      intro _
      by_cases hn1 : n = 0
      · subst hn1
        exact blockSpec_one
      · have h2 : 2 ≤ n + 1 := by omega
        have ibs : BlockSpec (n + 1 - 1) := by
          have e : n + 1 - 1 = n := by omega
          rw [e]
          exact ihn (by omega)
        intro t c hlen hn2 hdz
        obtain ⟨outs, c', hEm, hc'len, hc'sat, hc'keep, hCount, hPP, hPPfin,
            hposI, hND⟩ :=
          block_inner h2 ibs (n + 1) 0 (by omega) t c hlen hn2
            (fun d h1 hd2 => hdz d h1 (by omega))
            (hdz (n + 1) (by omega) le_rfl)
            (by rw [applyMap_eq_self fun p _ => mfun_zero _ p]
                exact prefixPerm_rfl _ _)
        rw [applyMap_eq_self fun p _ => mfun_zero _ p] at hEm hposI hND
        refine ⟨outs, c', hEm, ⟨hc'len, hc'sat, hc'keep⟩, ?_, hPP, hPPfin,
          hND⟩
        rw [Nat.factorial_succ]
        exact hCount

theorem getD_replicate {n j : Nat} :
    (List.replicate n (0 : Nat)).getD j 0 = 0 := by
  by_cases h : j < n
  · simp [List.getD_eq_getElem?_getD, List.getElem?_replicate, h]
  · rw [getD_of_le (by simpa using (by omega : n ≤ j))]

/-- Master theorem for the inner Heap iterator: started on `0..n`, it
emits exactly the permutations of `0..n`, each exactly once. -/
theorem uniquePerms_master (n : Nat) :
    (uniquePerms n).length = n.factorial ∧ (uniquePerms n).Nodup ∧
    ∀ z, z ∈ uniquePerms n ↔ z.Perm (List.range n) := by
  have hnew : UniquePermutationGenerator.new (List.range n) =
      ⟨List.range n, List.replicate n 0, 0⟩ := by
    rw [UniquePermutationGenerator.new, List.length_range]
  have hstep0 : UniquePermutationGenerator.next
      ⟨List.range n, List.replicate n 0, 0⟩ =
      some (List.range n, ⟨List.range n, List.replicate n 0, 1⟩) := by
    rw [UniquePermutationGenerator.next]
    simp
  by_cases hn2 : n ≤ 1
  · have hdone : UniquePermutationGenerator.next
        ⟨List.range n, List.replicate n 0, 1⟩ = none := by
      apply next_of_scan_none (by omega)
      apply upg_scan_none (by simp)
      intro d hd1 hd2
      rw [List.length_range] at hd2
      omega
    have hEmits : Emits ⟨List.range n, List.replicate n 0, 0⟩
        [List.range n] ⟨List.range n, List.replicate n 0, 1⟩ :=
      Emits.cons _ _ _ _ _ hstep0 (Emits.nil _)
    have hfact : n.factorial = 1 := by
      rcases (by omega : n = 0 ∨ n = 1) with h | h <;> rw [h] <;> rfl
    have hrun : uniquePerms n = [List.range n] := by
      rw [uniquePerms, hnew]
      exact hEmits.run_eq hdone (by simp [hfact])
    rw [hrun, hfact]
    refine ⟨rfl, by simp, fun z => ?_⟩
    rcases (by omega : n = 0 ∨ n = 1) with h | h <;> subst h
    · simp [List.range_zero]
    · have h1 : List.range 1 = [0] := rfl
      rw [h1]
      simp [List.perm_singleton]
  · have h2n : 2 ≤ n := by omega
    have en : n - 1 + 1 = n := by omega
    obtain ⟨outs, c', hEm, hSat, hCount, hPP, hPPfin, hND⟩ :=
      blockSpec_all (n - 1) (by omega) (List.range n) (List.replicate n 0)
        (by simp) (by rw [List.length_range]; omega)
        (fun d h1 hd2 => getD_replicate)
    rw [en] at hCount hND
    have hYlen : (applyMap (sigmaF (n - 1)) (List.range n)).length = n := by
      rw [applyMap_length, List.length_range]
    have hdone : UniquePermutationGenerator.next
        ⟨applyMap (sigmaF (n - 1)) (List.range n), c', 1⟩ = none := by
      apply next_of_scan_none (by omega)
      apply upg_scan_none
      · rw [hSat.1, hYlen, List.length_replicate]
      · intro d hd1 hd2
        rw [hYlen] at hd2
        exact hSat.2.1 d hd1 (by omega)
    have hEmits : Emits ⟨List.range n, List.replicate n 0, 0⟩
        (List.range n :: outs) ⟨applyMap (sigmaF (n - 1)) (List.range n),
          c', 1⟩ :=
      Emits.cons _ _ _ _ _ hstep0 hEm
    have hrun : uniquePerms n = List.range n :: outs := by
      rw [uniquePerms, hnew]
      exact hEmits.run_eq hdone (by simp; omega)
    have hlen : (uniquePerms n).length = n.factorial := by
      rw [hrun, List.length_cons, hCount]
    have htake : List.take n (List.range n) = List.range n :=
      List.take_of_length_le (by rw [List.length_range])
    have hnd : (uniquePerms n).Nodup := by
      rw [hrun]
      apply hND
      rw [htake]
      exact List.nodup_range n
    refine ⟨hlen, hnd, fun z => ⟨fun hz => ?_, fun hz => ?_⟩⟩
    · rw [hrun] at hz
      rcases List.mem_cons.mp hz with hz | hz
      · subst hz
        exact List.Perm.refl _
      · exact (hPP z hz).perm
    · have hsub : uniquePerms n ⊆ (List.range n).permutations := by
        intro y hy
        rw [List.mem_permutations]
        rw [hrun] at hy
        rcases List.mem_cons.mp hy with hy | hy
        · subst hy
          exact List.Perm.refl _
        · exact (hPP y hy).perm
      have hsp : List.Subperm (uniquePerms n) (List.range n).permutations :=
        List.subperm_of_subset hnd hsub
      have hpl : (List.range n).permutations.length = n.factorial := by
        rw [List.length_permutations, List.length_range]
      have hperm : (uniquePerms n).Perm ((List.range n).permutations) :=
        hsp.perm_of_length_le (by rw [hpl, hlen])
      rw [hperm.mem_iff, List.mem_permutations]
      exact hz

/-! ### The duplicate filter: element blocks and predecessor links -/

/-- Start of the block of position ids carrying value `v`. -/
def baseOf : List (Nat × Nat) → Nat → Nat
  | [], _ => 0
  | p :: rest, v => if p.1 = v then 0 else p.2 + baseOf rest v

theorem getD_append_left {α : Type} {l₁ l₂ : List α} {idx : Nat} (d : α)
    (h : idx < l₁.length) : (l₁ ++ l₂).getD idx d = l₁.getD idx d := by
  rw [List.getD_eq_getElem?_getD, List.getD_eq_getElem?_getD,
    List.getElem?_append_left h]

theorem getD_append_right {α : Type} {l₁ l₂ : List α} {idx : Nat} (d : α)
    (h : l₁.length ≤ idx) :
    (l₁ ++ l₂).getD idx d = l₂.getD (idx - l₁.length) d := by
  rw [List.getD_eq_getElem?_getD, List.getD_eq_getElem?_getD,
    List.getElem?_append_right h]

theorem getD_replicate_lt {c v k : Nat} (h : k < c) :
    (List.replicate c v).getD k 0 = v := by
  simp [List.getD_eq_getElem?_getD, List.getElem?_replicate, h]

theorem length_buildElems (ps : List (Nat × Nat)) :
    (buildElems ps).length = (ps.map Prod.snd).sum := by
  induction ps with
  | nil => rfl
  | cons p rest ih =>
      rw [buildElems, List.flatMap_cons, List.length_append,
        List.length_replicate, List.map_cons, List.sum_cons, ← ih]
      rfl

theorem buildElems_cons (p : Nat × Nat) (rest : List (Nat × Nat)) :
    buildElems (p :: rest) = List.replicate p.2 p.1 ++ buildElems rest := by
  rw [buildElems, List.flatMap_cons]
  rfl

theorem bVal_mem : ∀ (ps : List (Nat × Nat)) (k : Nat),
    k < (buildElems ps).length →
    (buildElems ps).getD k 0 ∈ ps.map Prod.fst := by
  intro ps
  induction ps with
  | nil => intro k hk; simp [buildElems] at hk
  | cons p rest ih =>
      intro k hk
      rw [buildElems_cons] at hk ⊢
      rw [List.length_append, List.length_replicate] at hk
      by_cases hkc : k < p.2
      · rw [getD_append_left 0 (by simpa using hkc), getD_replicate_lt hkc]
        exact List.mem_cons_self _ _
      · rw [getD_append_right 0 (by simpa using (by omega : p.2 ≤ k))]
        rw [List.length_replicate]
        exact List.mem_cons_of_mem _ (ih (k - p.2) (by omega))

theorem count_buildElems_notmem : ∀ {ps : List (Nat × Nat)} {v : Nat},
    v ∉ ps.map Prod.fst → (buildElems ps).count v = 0 := by
  intro ps
  induction ps with
  | nil => intro v _; rfl
  | cons p rest ih =>
      intro v hv
      rw [List.map_cons, List.mem_cons] at hv
      push_neg at hv
      rw [buildElems_cons, List.count_append, List.count_replicate]
      simp only [beq_iff_eq]
      rw [if_neg (fun h => hv.1 h.symm), ih hv.2]

/-- Encoding: the `k`-th copy of value `v` sits at position id
`baseOf ps v + k`, and that id carries value `v`. -/
theorem buildElems_encode : ∀ (ps : List (Nat × Nat)) (v k : Nat),
    (ps.map Prod.fst).Nodup → k < (buildElems ps).count v →
    baseOf ps v + k < (buildElems ps).length ∧
      (buildElems ps).getD (baseOf ps v + k) 0 = v := by
  intro ps
  induction ps with
  | nil => intro v k _ hk; simp [buildElems] at hk
  | cons p rest ih =>
      intro v k hnd hk
      rw [List.map_cons, List.nodup_cons] at hnd
      rw [buildElems_cons, List.count_append, List.count_replicate] at hk
      simp only [beq_iff_eq] at hk
      rw [buildElems_cons, List.length_append, List.length_replicate]
      by_cases hpv : p.1 = v
      · subst hpv
        rw [if_pos rfl] at hk
        rw [count_buildElems_notmem hnd.1] at hk
        rw [baseOf, if_pos rfl]
        constructor
        · omega
        · rw [getD_append_left 0 (by simpa using (by omega : k < p.2)),
            getD_replicate_lt (by omega)]
      · rw [if_neg hpv] at hk
        rw [baseOf, if_neg hpv]
        obtain ⟨h1, h2⟩ := ih v k hnd.2 (by omega)
        constructor
        · omega
        · rw [getD_append_right 0
            (by rw [List.length_replicate]; omega)]
          rw [List.length_replicate]
          rw [show p.2 + baseOf rest v + k - p.2 = baseOf rest v + k
            from by omega]
          exact h2

/-- Decoding: every position id lies inside the block of its value. -/
theorem buildElems_decode : ∀ (ps : List (Nat × Nat)) (idx : Nat),
    (ps.map Prod.fst).Nodup → idx < (buildElems ps).length →
    baseOf ps ((buildElems ps).getD idx 0) ≤ idx ∧
      idx < baseOf ps ((buildElems ps).getD idx 0) +
        (buildElems ps).count ((buildElems ps).getD idx 0) := by
  intro ps
  induction ps with
  | nil => intro idx _ h; simp [buildElems] at h
  | cons p rest ih =>
      intro idx hnd hidx
      rw [List.map_cons, List.nodup_cons] at hnd
      rw [buildElems_cons, List.length_append, List.length_replicate] at hidx
      rw [buildElems_cons]
      by_cases hkc : idx < p.2
      · rw [getD_append_left 0 (by simpa using hkc), getD_replicate_lt hkc,
          baseOf, if_pos rfl, List.count_append, List.count_replicate]
        simp only [beq_iff_eq, eq_self_iff_true, if_true]
        rw [count_buildElems_notmem hnd.1]
        omega
      · rw [getD_append_right 0 (by simpa using (by omega : p.2 ≤ idx))]
        rw [List.length_replicate]
        have hmem := bVal_mem rest (idx - p.2) (by omega)
        have hne : p.1 ≠ (buildElems rest).getD (idx - p.2) 0 := by
          intro h
          exact hnd.1 (h ▸ hmem)
        obtain ⟨h1, h2⟩ := ih (idx - p.2) hnd.2 (by omega)
        rw [baseOf, if_neg hne, List.count_append, List.count_replicate]
        simp only [beq_iff_eq]
        rw [if_neg hne]
        omega

theorem length_groupLinks (b c : Nat) : (groupLinks b c).length = c := by
  simp [groupLinks]

theorem getD_groupLinks {b c idx : Nat} (h : idx < c) :
    (groupLinks b c).getD idx none =
      if idx = 0 then none else some (b + idx - 1) := by
  rw [groupLinks, List.getD_eq_getElem?_getD]
  rw [List.getElem?_map, List.getElem?_range h]
  rfl

theorem length_buildGroups : ∀ (ps : List (Nat × Nat)) (b : Nat),
    (buildGroups b ps).length = (ps.map Prod.snd).sum := by
  intro ps
  induction ps with
  | nil => intro b; rfl
  | cons p rest ih =>
      intro b
      rw [buildGroups, List.length_append, length_groupLinks, ih,
        List.map_cons, List.sum_cons]

/-- A position id whose predecessor equals its left neighbour: every
non-first copy of a value links to the previous copy. -/
theorem buildGroups_some : ∀ (ps : List (Nat × Nat)) (b idx : Nat),
    (ps.map Prod.fst).Nodup → idx < (buildElems ps).length → 1 ≤ idx →
    (buildElems ps).getD (idx - 1) 0 = (buildElems ps).getD idx 0 →
    (buildGroups b ps).getD idx none = some (b + idx - 1) := by
  intro ps
  induction ps with
  | nil => intro b idx _ h _ _; simp [buildElems] at h
  | cons p rest ih =>
      intro b idx hnd hidx h1 hval
      rw [List.map_cons, List.nodup_cons] at hnd
      rw [buildElems_cons, List.length_append, List.length_replicate] at hidx
      rw [buildGroups]
      by_cases hkc : idx < p.2
      · rw [getD_append_left none (by rw [length_groupLinks]; omega),
          getD_groupLinks hkc, if_neg (by omega)]
      · rw [getD_append_right none (by rw [length_groupLinks]; omega),
          length_groupLinks]
        by_cases hb : idx = p.2
        · exfalso
          rw [buildElems_cons] at hval
          rw [getD_append_left 0 (by rw [List.length_replicate]; omega),
            getD_replicate_lt (by omega),
            getD_append_right 0 (by rw [List.length_replicate]; omega),
            List.length_replicate] at hval
          have hmem := bVal_mem rest (idx - p.2) (by omega)
          rw [← hval] at hmem
          exact hnd.1 hmem
        · rw [buildElems_cons,
            getD_append_right 0 (by rw [List.length_replicate]; omega),
            getD_append_right 0 (by rw [List.length_replicate]; omega),
            List.length_replicate] at hval
          have e1 : idx - 1 - p.2 = idx - p.2 - 1 := by omega
          rw [e1] at hval
          rw [ih (b + p.2) (idx - p.2) hnd.2 (by omega) (by omega) hval]
          congr 1
          omega

/-- Conversely, a present predecessor link always points at the left
neighbour, which carries the same value. -/
theorem buildGroups_inv : ∀ (ps : List (Nat × Nat)) (b idx : Nat)
    (prev : Nat), idx < (buildElems ps).length →
    (buildGroups b ps).getD idx none = some prev →
    prev = b + idx - 1 ∧ 1 ≤ idx ∧
      (buildElems ps).getD (idx - 1) 0 = (buildElems ps).getD idx 0 := by
  intro ps
  induction ps with
  | nil => intro b idx prev h _; simp [buildElems] at h
  | cons p rest ih =>
      intro b idx prev hidx hsome
      rw [buildElems_cons, List.length_append, List.length_replicate] at hidx
      rw [buildGroups] at hsome
      by_cases hkc : idx < p.2
      · rw [getD_append_left none (by rw [length_groupLinks]; omega),
          getD_groupLinks hkc] at hsome
        by_cases h0 : idx = 0
        · rw [if_pos h0] at hsome
          exact absurd hsome (by simp)
        · rw [if_neg h0] at hsome
          have hp : b + idx - 1 = prev := by simpa using hsome
          refine ⟨by omega, by omega, ?_⟩
          rw [buildElems_cons,
            getD_append_left 0 (by rw [List.length_replicate]; omega),
            getD_append_left 0 (by rw [List.length_replicate]; omega),
            getD_replicate_lt (by omega), getD_replicate_lt (by omega)]
      · rw [getD_append_right none (by rw [length_groupLinks]; omega),
          length_groupLinks] at hsome
        obtain ⟨hp, h1, hv⟩ := ih (b + p.2) (idx - p.2) prev (by omega) hsome
        refine ⟨by omega, by omega, ?_⟩
        rw [buildElems_cons,
          getD_append_right 0 (by rw [List.length_replicate]; omega),
          getD_append_right 0 (by rw [List.length_replicate]; omega),
          List.length_replicate]
        have e1 : idx - 1 - p.2 = idx - p.2 - 1 := by omega
        rw [e1]
        exact hv

/-- The skip test of `PermutationGenerator::next`, characterized: an
index permutation is kept iff, within every value class, the position
ids appear in increasing order. -/
theorem canonical_iff_pairwise {ps : List (Nat × Nat)} {a : List Nat}
    (hnd : (ps.map Prod.fst).Nodup)
    (ha : a.Perm (List.range (buildElems ps).length)) :
    canonical (buildGroups 0 ps) a = true ↔
      a.Pairwise (fun x y =>
        (buildElems ps).getD x 0 = (buildElems ps).getD y 0 → x < y) := by
  have hand : a.Nodup := ha.nodup_iff.mpr (List.nodup_range _)
  have hmem : ∀ x, x ∈ a ↔ x < (buildElems ps).length := fun x => by
    rw [ha.mem_iff, List.mem_range]
  constructor
  · intro hc
    rw [canonical, List.all_eq_true] at hc
    rw [List.pairwise_iff_getElem]
    intro i j hi hj hij hval
    by_contra hxy
    have hne : a[j] ≠ a[i] := by
      intro he
      rw [hand.getElem_inj_iff] at he
      omega
    have hyx : a[j] < a[i] := by
      rcases Nat.lt_trichotomy a[i] a[j] with h | h | h
      · omega
      · exact absurd h.symm hne
      · exact h
    have hxmem : a[i] < (buildElems ps).length :=
      (hmem _).mp (List.getElem_mem hi)
    obtain ⟨hdec1, hdec2⟩ := buildElems_decode ps a[i] hnd hxmem
    obtain ⟨hdec3, hdec4⟩ := buildElems_decode ps a[j] hnd
      (by omega)
    rw [← hval] at hdec3 hdec4
    have hvalu : ∀ u, a[j] ≤ u → u ≤ a[i] →
        (buildElems ps).getD u 0 = (buildElems ps).getD a[i] 0 := by
      intro u h1 h2
      have := buildElems_encode ps ((buildElems ps).getD a[i] 0)
        (u - baseOf ps ((buildElems ps).getD a[i] 0)) hnd (by omega)
      rw [show baseOf ps ((buildElems ps).getD a[i] 0) +
        (u - baseOf ps ((buildElems ps).getD a[i] 0)) = u from by omega] at this
      exact this.2
    have hchain : ∀ d, a[j] + d ≤ a[i] →
        a.indexOf a[j] ≤ a.indexOf (a[j] + d) := by
      intro d
      induction d with
      | zero => intro _; rfl
      | succ d ihd =>
          intro hd
          have hcur : a[j] + d + 1 ∈ a := (hmem _).mpr (by omega)
          have hcc := hc _ hcur
          have hg := buildGroups_some ps 0 (a[j] + d + 1) hnd (by omega)
            (by omega)
            (by rw [show a[j] + d + 1 - 1 = a[j] + d from by omega,
                  hvalu (a[j] + d) (by omega) (by omega),
                  hvalu (a[j] + d + 1) (by omega) (by omega)])
          rw [hg] at hcc
          simp only [decide_eq_true_eq] at hcc
          have e1 : 0 + (a[j] + d + 1) - 1 = a[j] + d := by omega
          rw [e1] at hcc
          exact le_trans (ihd (by omega)) hcc
    have hfin := hchain (a[i] - a[j]) (by omega)
    rw [show a[j] + (a[i] - a[j]) = a[i] from by omega] at hfin
    rw [List.indexOf_getElem hand i hi, List.indexOf_getElem hand j hj]
      at hfin
    omega
  · intro hp
    rw [canonical, List.all_eq_true]
    intro cur hcur
    cases hg : (buildGroups 0 ps).getD cur none with
    | none => rfl
    | some prev =>
        simp only [decide_eq_true_eq]
        have hcn : cur < (buildElems ps).length := (hmem cur).mp hcur
        obtain ⟨hp1, hp2, hp3⟩ := buildGroups_inv ps 0 cur prev hcn hg
        have hprev : prev = cur - 1 := by omega
        subst hprev
        have hpm : cur - 1 ∈ a := (hmem _).mpr (by omega)
        have hi1 : a.indexOf (cur - 1) < a.length :=
          List.indexOf_lt_length.mpr hpm
        have hi2 : a.indexOf cur < a.length :=
          List.indexOf_lt_length.mpr hcur
        by_contra hlt
        have hlt2 : a.indexOf cur < a.indexOf (cur - 1) := by omega
        rw [List.pairwise_iff_getElem] at hp
        have := hp (a.indexOf cur) (a.indexOf (cur - 1)) hi2 hi1 hlt2
        rw [List.getElem_indexOf hi2, List.getElem_indexOf hi1] at this
        have := this hp3.symm
        omega

/-- Two orderings of the same id set that are both increasing within
every value class and induce the same value sequence are equal. -/
theorem pairwise_class_inj {val : Nat → Nat} :
    ∀ (a b : List Nat), a.Nodup → b.Nodup → (∀ x, x ∈ a ↔ x ∈ b) →
    a.Pairwise (fun x y => val x = val y → x < y) →
    b.Pairwise (fun x y => val x = val y → x < y) →
    a.map val = b.map val → a = b := by
  intro a
  induction a with
  | nil =>
      intro b _ _ _ _ _ hmap
      cases b with
      | nil => rfl
      | cons y b' => simp at hmap
  | cons x a' ih =>
      intro b hna hnb hmem hpa hpb hmap
      cases b with
      | nil => simp at hmap
      | cons y b' =>
          simp only [List.map_cons, List.cons.injEq] at hmap
          obtain ⟨hv, hmap2⟩ := hmap
          rw [List.nodup_cons] at hna hnb
          rw [List.pairwise_cons] at hpa hpb
          have hxy : x = y := by
            have hx : x ∈ y :: b' := (hmem x).mp (List.mem_cons_self _ _)
            have hy : y ∈ x :: a' := (hmem y).mpr (List.mem_cons_self _ _)
            rcases List.mem_cons.mp hx with h | hxb
            · exact h
            · rcases List.mem_cons.mp hy with h | hya
              · exact h.symm
              · have h1 := hpa.1 y hya hv
                have h2 := hpb.1 x hxb hv.symm
                omega
          subst hxy
          congr 1
          refine ih b' hna.2 hnb.2 (fun z => ?_) hpa.2 hpb.2 hmap2
          constructor
          · intro hz
            have hz2 : z ∈ x :: b' := (hmem z).mp (List.mem_cons_of_mem _ hz)
            rcases List.mem_cons.mp hz2 with h | h
            · exact absurd (h ▸ hz) hna.1
            · exact h
          · intro hz
            have hz2 : z ∈ x :: a' := (hmem z).mpr (List.mem_cons_of_mem _ hz)
            rcases List.mem_cons.mp hz2 with h | h
            · exact absurd (h ▸ hz) hnb.1
            · exact h

/-- Strict growth of prefix counts at an occurrence. -/
theorem take_count_lt {z : List Nat} {i j : Nat} (hij : i < j)
    (hj : j ≤ z.length) (hi : i < z.length) (v : Nat)
    (hvi : z.getD i 0 = v) :
    (z.take i).count v < (z.take j).count v := by
  have hsucc : (z.take (i + 1)).count v = (z.take i).count v + 1 := by
    rw [List.take_succ, List.getElem?_eq_getElem hi]
    rw [List.count_append]
    have he : z[i] = v := by rw [← hvi, List.getD_eq_getElem z 0 hi]
    simp [he]
  have hmono : (z.take (i + 1)).count v ≤ (z.take j).count v := by
    apply List.Sublist.count_le
    rw [show z.take (i + 1) = (z.take j).take (i + 1) from by
      rw [List.take_take, min_eq_left (by omega)]]
    exact List.take_sublist _ _
  omega

/-- Every ordering of the value multiset is the image of a canonical
index permutation. -/
theorem exists_canonical_perm {ps : List (Nat × Nat)} {z : List Nat}
    (hnd : (ps.map Prod.fst).Nodup) (hz : z.Perm (buildElems ps)) :
    ∃ a : List Nat, a.Perm (List.range (buildElems ps).length) ∧
      a.Pairwise (fun x y =>
        (buildElems ps).getD x 0 = (buildElems ps).getD y 0 → x < y) ∧
      a.map (fun idx => (buildElems ps).getD idx 0) = z := by
  have hlen : z.length = (buildElems ps).length := hz.length_eq
  have hkf : ∀ i, i < z.length →
      (z.take i).count (z.getD i 0) <
        (buildElems ps).count (z.getD i 0) := by
    intro i hi
    have h1 := take_count_lt hi le_rfl hi (z.getD i 0) rfl
    rw [List.take_length, hz.count_eq] at h1
    exact h1
  have henc : ∀ i, i < z.length →
      baseOf ps (z.getD i 0) + ((z.take i).count (z.getD i 0)) <
          (buildElems ps).length ∧
        (buildElems ps).getD
          (baseOf ps (z.getD i 0) + ((z.take i).count (z.getD i 0))) 0 =
          z.getD i 0 :=
    fun i hi => buildElems_encode ps (z.getD i 0) _ hnd (hkf i hi)
  have hfinj : ∀ i j, i < z.length → j < z.length → i < j →
      (baseOf ps (z.getD i 0) + ((z.take i).count (z.getD i 0)) ≠
        baseOf ps (z.getD j 0) + ((z.take j).count (z.getD j 0))) ∧
      ((buildElems ps).getD
          (baseOf ps (z.getD i 0) + ((z.take i).count (z.getD i 0))) 0 =
        (buildElems ps).getD
          (baseOf ps (z.getD j 0) + ((z.take j).count (z.getD j 0))) 0 →
        baseOf ps (z.getD i 0) + ((z.take i).count (z.getD i 0)) <
          baseOf ps (z.getD j 0) + ((z.take j).count (z.getD j 0))) := by
    intro i j hi hj hij
    by_cases hv : z.getD i 0 = z.getD j 0
    · have hcc := take_count_lt hij (by omega) hi (z.getD j 0) hv
      rw [hv]
      constructor
      · omega
      · intro _
        omega
    · have hvi := (henc i hi).2
      have hvj := (henc j hj).2
      constructor
      · intro he
        rw [he, hvj] at hvi
        exact hv hvi.symm
      · intro he
        rw [hvi, hvj] at he
        exact absurd he hv
  have hndup : ((List.range z.length).map fun i =>
      baseOf ps (z.getD i 0) + ((z.take i).count (z.getD i 0))).Nodup := by
    apply List.Nodup.map_on ?_ (List.nodup_range _)
    intro x hx y hy he
    rw [List.mem_range] at hx hy
    by_contra hne
    rcases Nat.lt_trichotomy x y with h | h | h
    · exact (hfinj x y hx hy h).1 he
    · exact hne h
    · exact (hfinj y x hy hx h).1 he.symm
  refine ⟨(List.range z.length).map fun i =>
    baseOf ps (z.getD i 0) + ((z.take i).count (z.getD i 0)), ?_, ?_, ?_⟩
  · apply List.Subperm.perm_of_length_le
    · apply List.subperm_of_subset hndup
      intro w hw
      obtain ⟨i, hir, rfl⟩ := List.mem_map.mp hw
      rw [List.mem_range] at hir
      rw [List.mem_range]
      exact (henc i hir).1
    · rw [List.length_map, List.length_range, List.length_range, hlen]
  · rw [List.pairwise_map, List.pairwise_iff_getElem]
    intro i j hi hj hij
    rw [List.length_range] at hi hj
    simp only [List.getElem_range]
    exact (hfinj i j hi hj hij).2
  · rw [List.map_map]
    have e : (List.range z.length).map (fun i => z.getD i 0) = z := by
      rw [show (List.range z.length).map (fun i => z.getD i 0) =
        applyMap (fun p => p) z from rfl,
        @applyMap_eq_self (fun p => p) z fun p _ => rfl]
    exact (List.map_congr_left fun i hir =>
      (henc i (List.mem_range.mp hir)).2).trans e
theorem head_cons_of_head? {z : List Nat} {v : Nat}
    (h : z.head? = some v) : z = v :: z.tail := by
  cases z with
  | nil => simp at h
  | cons a t =>
      rw [List.head?_cons, Option.some_inj] at h
      rw [h]
      rfl

/-- A list of nonempty lists splits by head value: its length is the sum
of the sizes of the head-classes. -/
theorem length_eq_sum_filter_head (L : List (List Nat)) (s : Finset Nat)
    (hL : ∀ z ∈ L, ∃ w ∈ s, z.head? = some w) :
    L.length =
      s.sum fun w => (L.filter fun z => z.head? == some w).length := by
  induction L with
  | nil => simp
  | cons z L' ih =>
      obtain ⟨w0, hw0s, hw0⟩ := hL z (List.mem_cons_self _ _)
      rw [List.length_cons, ih fun y hy => hL y (List.mem_cons_of_mem _ hy)]
      have e : ∀ w, (List.filter (fun y => y.head? == some w) (z :: L')).length
          = (if z.head? = some w then 1 else 0) +
            (List.filter (fun y => y.head? == some w) L').length := by
        intro w
        rw [List.filter_cons]
        by_cases h : z.head? = some w
        · rw [if_pos (by rw [beq_iff_eq]; exact h), List.length_cons,
            if_pos h]
          omega
        · rw [if_neg (by rw [beq_iff_eq]; exact h), if_neg h]
          omega
      rw [Finset.sum_congr rfl fun w _ => e w, Finset.sum_add_distrib]
      have e2 : (s.sum fun w => if z.head? = some w then 1 else 0) = 1 := by
        have e3 : ∀ w, (if z.head? = some w then (1 : Nat) else 0)
            = (if w = w0 then 1 else 0) := by
          intro w
          by_cases h : w = w0
          · rw [if_pos h, if_pos (by rw [h]; exact hw0)]
          · rw [if_neg h, if_neg fun hc => by
              rw [hw0, Option.some_inj] at hc
              exact h hc.symm]
        rw [Finset.sum_congr rfl fun w _ => e3 w,
          Finset.sum_ite_eq' s w0 fun _ => (1 : Nat), if_pos hw0s]
      rw [e2]
      omega

/-- The per-pair factorial product equals the per-distinct-value
factorial product of the flattened element list. -/
theorem prod_ps {ps : List (Nat × Nat)} (hnd : (ps.map Prod.fst).Nodup) :
    ((buildElems ps).toFinset.prod
        fun w => ((buildElems ps).count w).factorial)
      = (ps.map fun p => p.2.factorial).prod := by
  induction ps with
  | nil => simp [buildElems]
  | cons p rest ih =>
      rw [List.map_cons, List.nodup_cons] at hnd
      rw [buildElems_cons, List.map_cons, List.prod_cons, ← ih hnd.2]
      have h0 : (buildElems rest).count p.1 = 0 :=
        count_buildElems_notmem hnd.1
      have hpnot : p.1 ∉ (buildElems rest).toFinset := by
        rw [List.mem_toFinset]
        rw [List.count_eq_zero] at h0
        exact h0
      by_cases hc : p.2 = 0
      · rw [hc]
        simp
      · have ht : (List.replicate p.2 p.1 ++ buildElems rest).toFinset
            = insert p.1 (buildElems rest).toFinset := by
          apply Finset.ext
          intro w
          simp [List.mem_toFinset, List.mem_append, List.mem_replicate, hc]
        rw [ht, Finset.prod_insert hpnot]
        congr 1
        · rw [List.count_append, List.count_replicate_self, h0,
            Nat.add_zero]
        · apply Finset.prod_congr rfl
          intro w hw
          have hwne : p.1 ≠ w := fun h => hpnot (h ▸ hw)
          rw [List.count_append, List.count_replicate]
          rw [if_neg (by rw [beq_iff_eq]; exact hwne), Nat.zero_add]

/-- Counting the distinct orderings of a multiset given as a list: any
duplicate-free, complete list `L` of orderings of `l` satisfies
`|L| * prod (count v)! = (length l)!`. -/
theorem orderings_count (l : List Nat) (L : List (List Nat))
    (hnd : L.Nodup) (hcomp : ∀ z, z ∈ L ↔ z.Perm l) :
    L.length * (l.toFinset.prod fun w => (l.count w).factorial)
      = l.length.factorial := by
  by_cases hl : l = []
  · subst hl
    have h1 : ([] : List Nat) ∈ L := (hcomp []).mpr (List.Perm.refl _)
    have h2 : ∀ z ∈ L, z = ([] : List Nat) := fun z hz =>
      List.perm_nil.mp ((hcomp z).mp hz)
    have hL : L = [[]] := by
      cases L with
      | nil => simp at h1
      | cons z L' =>
          have hz := h2 z (List.mem_cons_self _ _)
          subst hz
          cases L' with
          | nil => rfl
          | cons w L'' =>
              rw [List.nodup_cons] at hnd
              have hw := h2 w (by simp)
              exact absurd (by rw [← hw]; simp : ([] : List Nat) ∈ w :: L'')
                hnd.1
    rw [hL]
    simp
  · have hlpos : 0 < l.length := List.length_pos.mpr hl
    have hhead : ∀ z ∈ L, ∃ w ∈ l.toFinset, z.head? = some w := by
      intro z hz
      have hp := (hcomp z).mp hz
      have hzne : z ≠ [] := by
        intro h
        rw [h] at hp
        exact hl (List.perm_nil.mp hp.symm)
      cases z with
      | nil => exact absurd rfl hzne
      | cons a t =>
          refine ⟨a, ?_, rfl⟩
          rw [List.mem_toFinset]
          exact hp.subset (List.mem_cons_self _ _)
    have hsum := length_eq_sum_filter_head L l.toFinset hhead
    have key : ∀ v ∈ l.toFinset,
        (L.filter fun z => z.head? == some v).length *
            (l.toFinset.prod fun w => (l.count w).factorial)
          = l.count v * (l.length - 1).factorial := by
      intro v hvt
      have hvl : v ∈ l := List.mem_toFinset.mp hvt
      have hcv : 0 < l.count v := List.count_pos_iff.mpr hvl
      have hTnd : ((L.filter fun z => z.head? == some v).map
          List.tail).Nodup := by
        apply List.Nodup.map_on ?_ (hnd.filter _)
        intro z1 hz1 z2 hz2 he
        rw [List.mem_filter, beq_iff_eq] at hz1 hz2
        rw [head_cons_of_head? hz1.2, head_cons_of_head? hz2.2, he]
      have hTcomp : ∀ y, y ∈ (L.filter fun z => z.head? == some v).map
          List.tail ↔ y.Perm (l.erase v) := by
        intro y
        constructor
        · intro hy
          obtain ⟨z, hzF, rfl⟩ := List.mem_map.mp hy
          rw [List.mem_filter, beq_iff_eq] at hzF
          have hp := (hcomp z).mp hzF.1
          rw [head_cons_of_head? hzF.2] at hp
          exact (List.cons_perm_iff_perm_erase.mp hp).2
        · intro hy
          have hp : (v :: y).Perm l :=
            List.cons_perm_iff_perm_erase.mpr ⟨hvl, hy⟩
          have hmem : (v :: y) ∈ L := (hcomp _).mpr hp
          refine List.mem_map.mpr ⟨v :: y, ?_, rfl⟩
          rw [List.mem_filter, beq_iff_eq]
          exact ⟨hmem, rfl⟩
      have hrec := orderings_count (l.erase v)
        ((L.filter fun z => z.head? == some v).map List.tail) hTnd hTcomp
      rw [List.length_erase_of_mem hvl] at hrec
      have hQ1 : ((l.erase v).toFinset.prod
            fun w => ((l.erase v).count w).factorial)
          = (l.toFinset.prod fun w => ((l.erase v).count w).factorial) := by
        apply Finset.prod_subset
        · intro w hw
          rw [List.mem_toFinset] at hw ⊢
          exact List.mem_of_mem_erase hw
        · intro w _ hw
          rw [List.mem_toFinset] at hw
          rw [List.count_eq_zero.mpr hw]
          rfl
      have hQ2 : (l.toFinset.prod fun w => ((l.erase v).count w).factorial)
          = (l.count v - 1).factorial *
            ((l.toFinset.erase v).prod fun w => (l.count w).factorial) := by
        have hpc : ((l.toFinset.erase v).prod
              fun w => ((l.erase v).count w).factorial)
            = ((l.toFinset.erase v).prod fun w => (l.count w).factorial) :=
          Finset.prod_congr rfl fun w hw => by
            rw [List.count_erase_of_ne (Finset.mem_erase.mp hw).1]
        rw [← Finset.mul_prod_erase l.toFinset
          (fun w => ((l.erase v).count w).factorial) hvt,
          List.count_erase_self, hpc]
      have hQ3 : (l.toFinset.prod fun w => (l.count w).factorial)
          = (l.count v).factorial *
            ((l.toFinset.erase v).prod fun w => (l.count w).factorial) :=
        (Finset.mul_prod_erase l.toFinset _ hvt).symm
      have hfact : (l.count v).factorial
          = l.count v * (l.count v - 1).factorial := by
        obtain ⟨m, hm⟩ : ∃ m, l.count v = m + 1 := ⟨l.count v - 1, by omega⟩
        rw [hm, Nat.factorial_succ, show m + 1 - 1 = m from rfl]
      rw [← List.length_map _ List.tail, hQ3, hfact]
      rw [hQ1, hQ2] at hrec
      calc ((L.filter fun z => z.head? == some v).map List.tail).length *
            (l.count v * (l.count v - 1).factorial *
              ((l.toFinset.erase v).prod fun w => (l.count w).factorial))
          = l.count v *
            (((L.filter fun z => z.head? == some v).map List.tail).length *
              ((l.count v - 1).factorial *
                ((l.toFinset.erase v).prod
                  fun w => (l.count w).factorial))) := by ring
        _ = l.count v * (l.length - 1).factorial := by rw [hrec]
    calc L.length * (l.toFinset.prod fun w => (l.count w).factorial)
        = (l.toFinset.sum fun v =>
            (L.filter fun z => z.head? == some v).length) *
          (l.toFinset.prod fun w => (l.count w).factorial) := by rw [← hsum]
      _ = l.toFinset.sum fun v =>
            (L.filter fun z => z.head? == some v).length *
              (l.toFinset.prod fun w => (l.count w).factorial) := by
          rw [Finset.sum_mul]
      _ = l.toFinset.sum fun v => l.count v * (l.length - 1).factorial := by
          exact Finset.sum_congr rfl key
      _ = (l.toFinset.sum fun v => l.count v) * (l.length - 1).factorial := by
          rw [Finset.sum_mul]
      _ = l.length * (l.length - 1).factorial := by
          have hsc := Multiset.toFinset_sum_count_eq (l : Multiset Nat)
          rw [show (l.toFinset.sum fun v => l.count v) = l.length from by
            simpa using hsc]
      _ = l.length.factorial := by
          obtain ⟨m, hm⟩ : ∃ m, l.length = m + 1 := ⟨l.length - 1, by omega⟩
          rw [hm, Nat.factorial_succ, show m + 1 - 1 = m from rfl]
termination_by l.length
decreasing_by
  rw [List.length_erase_of_mem hvl]
  omega

/-- **C3.** For every finite multiset of values given as
value-multiplicity pairs (values pairwise distinct, as produced by the
`BTreeMap`-backed `KeyCount` in the source), the duplicate-aware
permutation generator emits every distinct value-sequence ordering of
the multiset exactly once — its output list has no duplicate and
contains exactly the orderings — and the number of emitted sequences
equals `n!` divided by the product of the factorials of the
multiplicities, where `n` is the total element count. -/
theorem c3_permutation_generator_exact (ps : List (Nat × Nat))
    (hnd : (ps.map Prod.fst).Nodup) :
    (permgen_output ps).Nodup ∧
    (∀ z, z ∈ permgen_output ps ↔ z.Perm (buildElems ps)) ∧
    (permgen_output ps).length * (ps.map fun p => p.2.factorial).prod
      = (ps.map Prod.snd).sum.factorial ∧
    (permgen_output ps).length
      = (ps.map Prod.snd).sum.factorial /
        (ps.map fun p => p.2.factorial).prod := by
  have hn : (buildElems ps).length = (ps.map Prod.snd).sum :=
    length_buildElems ps
  obtain ⟨hulen, hundup, humem⟩ := uniquePerms_master (ps.map Prod.snd).sum
  have hperm2 : ∀ a ∈ (uniquePerms (ps.map Prod.snd).sum).filter
      (canonical (buildGroups 0 ps)),
      a.Perm (List.range (buildElems ps).length) := by
    intro a ha
    rw [List.mem_filter] at ha
    rw [hn]
    exact (humem a).mp ha.1
  have hcanon : ∀ a ∈ (uniquePerms (ps.map Prod.snd).sum).filter
      (canonical (buildGroups 0 ps)),
      a.Pairwise (fun x y =>
        (buildElems ps).getD x 0 = (buildElems ps).getD y 0 → x < y) := by
    intro a ha
    have hf := (List.mem_filter.mp ha).2
    exact (canonical_iff_pairwise hnd (hperm2 a ha)).mp hf
  have hmapr : (List.range (buildElems ps).length).map
      (fun idx => (buildElems ps).getD idx 0) = buildElems ps := by
    rw [show (List.range (buildElems ps).length).map
        (fun idx => (buildElems ps).getD idx 0)
      = applyMap (fun p => p) (buildElems ps) from rfl,
      @applyMap_eq_self (fun p => p) (buildElems ps) fun p _ => rfl]
  have hNodup : (permgen_output ps).Nodup := by
    unfold permgen_output
    apply List.Nodup.map_on ?_ (hundup.filter _)
    intro a ha b hb he
    have hpa := hperm2 a ha
    have hpb := hperm2 b hb
    exact pairwise_class_inj a b (hpa.nodup_iff.mpr (List.nodup_range _))
      (hpb.nodup_iff.mpr (List.nodup_range _))
      (fun x => (hpa.mem_iff).trans (hpb.mem_iff).symm)
      (hcanon a ha) (hcanon b hb) he
  have hMem : ∀ z, z ∈ permgen_output ps ↔ z.Perm (buildElems ps) := by
    intro z
    unfold permgen_output
    constructor
    · intro hz
      obtain ⟨a, ha, rfl⟩ := List.mem_map.mp hz
      have hmm := (hperm2 a ha).map fun idx => (buildElems ps).getD idx 0
      rw [hmapr] at hmm
      exact hmm
    · intro hz
      obtain ⟨a, hap, hapw, hamap⟩ := exists_canonical_perm hnd hz
      refine List.mem_map.mpr ⟨a, ?_, hamap⟩
      rw [List.mem_filter]
      rw [hn] at hap
      refine ⟨(humem a).mpr hap, ?_⟩
      rw [← hn] at hap
      exact (canonical_iff_pairwise hnd hap).mpr hapw
  have hCount := orderings_count (buildElems ps) (permgen_output ps)
    hNodup hMem
  rw [prod_ps hnd, hn] at hCount
  have hprodpos : 0 < (ps.map fun p => p.2.factorial).prod := by
    apply List.prod_pos
    intro x hx
    obtain ⟨p, _, rfl⟩ := List.mem_map.mp hx
    exact Nat.factorial_pos _
  refine ⟨hNodup, hMem, hCount, ?_⟩
  rw [← hCount, Nat.mul_div_cancel _ hprodpos]

/-- Witness: the generator theorem applied to the concrete multiset
`{3, 3, 5}` (pairs `[(3, 2), (5, 1)]`). -/
theorem c3_permutation_generator_exact_witness :
    ((([(3, 2), (5, 1)] : List (Nat × Nat)).map Prod.fst).Nodup) ∧
    ((permgen_output [(3, 2), (5, 1)]).Nodup ∧
    (∀ z, z ∈ permgen_output [(3, 2), (5, 1)] ↔
      z.Perm (buildElems [(3, 2), (5, 1)])) ∧
    (permgen_output [(3, 2), (5, 1)]).length *
        ([(3, 2), (5, 1)].map fun p => p.2.factorial).prod
      = ([(3, 2), (5, 1)].map Prod.snd).sum.factorial ∧
    (permgen_output [(3, 2), (5, 1)]).length
      = ([(3, 2), (5, 1)].map Prod.snd).sum.factorial /
        ([(3, 2), (5, 1)].map fun p => p.2.factorial).prod) :=
  ⟨by decide, c3_permutation_generator_exact [(3, 2), (5, 1)] (by decide)⟩

/-! ## Expressions (`src/base_types/expressions.rs`) -/

/-- `Operator` (src/base_types/expressions.rs, lines 15-24). -/
inductive Operator where
  | Add
  | Sub
  | Mul
  | Div
deriving DecidableEq, Repr

/-- The discriminant each operator is declared with (`Add = 1`, `Sub = 2`,
`Mul = 4`, `Div = 8`): its single-bit mask in the `Operators` set. -/
def Operator.mask : Operator → Nat
  | .Add => 1
  | .Sub => 2
  | .Mul => 4
  | .Div => 8

/-- The `NumberSystem<T>` trait (src/base_types/numbers.rs, lines 71-76):
a strategy record of the four partial operations. -/
structure NumberSystem where
  add : Nat → Nat → Option Nat
  sub : Nat → Nat → Option Nat
  mul : Nat → Nat → Option Nat
  div : Nat → Nat → Option Nat

/-- The `NormalNumberSystem` strategy packaged as a `NumberSystem`. -/
def NormalNumberSystem : NumberSystem :=
  ⟨normal_add, normal_sub, normal_mul, normal_div⟩

/-- A `ModularNumberSystem` value packaged as a `NumberSystem`. -/
def ModularNumberSystem.system (s : ModularNumberSystem) : NumberSystem :=
  ⟨msys_add s, msys_sub s, msys_mul s, msys_div s⟩

/-- `Operator::apply` (src/base_types/expressions.rs, lines 61-73). -/
def Operator.apply (op : Operator) (system : NumberSystem)
    (one other : Nat) : Option Nat :=
  match op with
  | .Add => system.add one other
  | .Sub => system.sub one other
  | .Mul => system.mul one other
  | .Div => system.div one other

/-- `Operators` (line 94): a set of operators as a `u8` bitmask. -/
structure Operators where
  bits : Nat
deriving DecidableEq, Repr

/-- `Operators::ALL = Operators(0xF)`. -/
def Operators.ALL : Operators := ⟨0xF⟩

/-- `OperatorIterator` (lines 117-138): walks the mask bit by bit from
bit 1 upward, yielding present operators in ascending bit order and
ignoring bits above `0xF`. -/
def Operators.toList (o : Operators) : List Operator :=
  (if o.bits &&& 1 ≠ 0 then [Operator.Add] else []) ++
  (if o.bits &&& 2 ≠ 0 then [Operator.Sub] else []) ++
  (if o.bits &&& 4 ≠ 0 then [Operator.Mul] else []) ++
  (if o.bits &&& 8 ≠ 0 then [Operator.Div] else [])

/-- `Expression<T>` (lines 150-156): a leaf value, or an application
node carrying its memoized value, the operator and the two children. -/
inductive Expression where
  | Value : Nat → Expression
  | Application : Nat → Operator → Expression → Expression → Expression
deriving DecidableEq, Repr

/-- `Expression::get_value` (lines 190-195). -/
def Expression.get_value : Expression → Nat
  | .Value t => t
  | .Application t _ _ _ => t

/-- `Expression::is_valid` (lines 196-221): an application is invalid if
its memoized value is `ZERO`, or if its operator is `Add`/`Mul` and its
right child is an application with the same operator. -/
def Expression.is_valid : Expression → Bool
  | .Value _ => true
  | .Application value operator _ expr_right =>
      if value = 0 then false
      else
        match operator with
        | .Add | .Mul =>
            (match expr_right with
             | .Value _ => true
             | .Application _ right_oper _ _ =>
                 if right_oper = operator then false else true)
        | .Sub => true
        | .Div => true

/-- `Expression::re_eval` (lines 222-232): recompute the value from the
leaves; the source `unwrap`s the operator application, so an undefined
operation (a panic there) is modelled by `none`. -/
def Expression.re_eval (system : NumberSystem) : Expression → Option Nat
  | .Value t => some t
  | .Application _ operator left right => do
      let l ← left.re_eval system
      let r ← right.re_eval system
      operator.apply system l r

/-- `Expression::check` (lines 233-236): `re_eval == get_value`, with the
panic-freedom of `re_eval` made explicit. -/
def Expression.check (system : NumberSystem) (e : Expression) : Prop :=
  e.re_eval system = some e.get_value

/-! ## The expression-tree generator
(`src/generators/expression_tree_generator.rs`) -/

/-- The operator/validity filter in the innermost loop of `generate_tree`
(lines 35-53): apply each allowed operator to the two candidate
children's memoized values; skip undefined results, results equal to
`ZERO`, and applications rejected by `is_valid`. -/
def apps_for (system : NumberSystem) (operators : List Operator)
    (left_expr right_expr : Expression) : List Expression :=
  operators.filterMap fun oper =>
    match oper.apply system left_expr.get_value right_expr.get_value with
    | none => none
    | some a =>
        if a = 0 then none
        else
          let expr := Expression.Application a oper left_expr right_expr
          if expr.is_valid then some expr else none

/-- `generate_tree` (lines 11-61), with the sender replaced by the list
of expressions it emits, in emission order: a single-element sequence
emits its leaf; otherwise, for every split point `mid ∈ 1..len`, the
cross product of the recursively generated left and right trees is
filtered through `apps_for`.  (The local `CachingTransiever` buffers,
cleared between split points, are exactly the recursive calls' result
lists.) -/
def generate_tree (system : NumberSystem) (operators : List Operator)
    (source_numbers : List Nat) : List Expression :=
  if source_numbers.length = 1 then
    [Expression.Value source_numbers[0]!]
  else
    (List.range' 1 (source_numbers.length - 1)).attach.flatMap fun m =>
      (generate_tree system operators (source_numbers.take m.val)).flatMap
        fun left_expr =>
          (generate_tree system operators
              (source_numbers.drop m.val)).flatMap fun right_expr =>
            apps_for system operators left_expr right_expr
termination_by source_numbers.length
decreasing_by
  · have hm := m.property
    rw [List.mem_range'_1] at hm
    simp only [List.length_take]
    omega
  · have hm := m.property
    rw [List.mem_range'_1] at hm
    simp only [List.length_drop]
    omega

/-- Unfolding of `generate_tree` for sequences of length other than one,
with the `attach` bookkeeping of the termination proof removed. -/
theorem generate_tree_unfold (system : NumberSystem) (operators : List Operator)
    (source_numbers : List Nat) (h : source_numbers.length ≠ 1) :
    generate_tree system operators source_numbers =
      (List.range' 1 (source_numbers.length - 1)).flatMap fun mid =>
        (generate_tree system operators (source_numbers.take mid)).flatMap
          fun left_expr =>
            (generate_tree system operators
                (source_numbers.drop mid)).flatMap fun right_expr =>
              apps_for system operators left_expr right_expr := by
  rw [generate_tree, if_neg h]
  rw [@List.flatMap_subtype _ _ _ _ _
        (fun mid =>
          (generate_tree system operators (source_numbers.take mid)).flatMap
            fun left_expr =>
              (generate_tree system operators
                  (source_numbers.drop mid)).flatMap fun right_expr =>
                apps_for system operators left_expr right_expr)
        (fun _ _ => rfl),
      List.unattach_attach]

/-- `generate_tree` on a single value emits exactly that leaf. -/
theorem generate_tree_singleton (system : NumberSystem)
    (operators : List Operator) (x : Nat) :
    generate_tree system operators [x] = [Expression.Value x] := by
  rw [generate_tree]
  simp

/-- `generate_tree` on a two-value sequence: the only split is `mid = 1`,
so the output is `apps_for` over the two leaves. -/
theorem generate_tree_pair (system : NumberSystem) (operators : List Operator)
    (a b : Nat) :
    generate_tree system operators [a, b] =
      apps_for system operators (.Value a) (.Value b) := by
  rw [generate_tree_unfold system operators [a, b] (by simp)]
  simp [List.range', generate_tree_singleton]

/-- The structural invariant every expression emitted by `generate_tree`
satisfies: each application node carries a nonzero memoized value that is
the operator applied (in the given system) to the children's memoized
values and passes `is_valid`, and each leaf holds one of the source
numbers. -/
def Expression.deep_ok (system : NumberSystem) (src : List Nat) :
    Expression → Prop
  | .Value v => v ∈ src
  | .Application a op l r =>
      a ≠ 0 ∧
      op.apply system l.get_value r.get_value = some a ∧
      (Expression.Application a op l r).is_valid = true ∧
      l.deep_ok system src ∧ r.deep_ok system src

/-- `deep_ok` is monotone in the source list. -/
theorem Expression.deep_ok_mono (system : NumberSystem)
    {src src' : List Nat} (hsub : src ⊆ src') :
    ∀ e : Expression, e.deep_ok system src → e.deep_ok system src'
  | .Value _, h => hsub h
  | .Application _ _ l r, ⟨h0, happ, hv, hl, hr⟩ =>
      ⟨h0, happ, hv, deep_ok_mono system hsub l hl,
        deep_ok_mono system hsub r hr⟩

/-- Every expression emitted by `generate_tree` satisfies the structural
invariant `deep_ok`. -/
theorem generate_tree_deep_ok (system : NumberSystem)
    (operators : List Operator) (nums : List Nat) (e : Expression)
    (he : e ∈ generate_tree system operators nums) :
    e.deep_ok system nums := by
  by_cases h : nums.length = 1
  · obtain ⟨x, rfl⟩ := List.length_eq_one.mp h
    rw [generate_tree_singleton] at he
    simp at he
    subst he
    simp [Expression.deep_ok]
  · rw [generate_tree_unfold system operators nums h] at he
    simp only [List.mem_flatMap, List.mem_range'_1] at he
    obtain ⟨mid, ⟨h1, h2⟩, l, hl, r, hr, he⟩ := he
    have hlen : 2 ≤ nums.length := by omega
    have hld := generate_tree_deep_ok system operators (nums.take mid) l hl
    have hrd := generate_tree_deep_ok system operators (nums.drop mid) r hr
    simp only [apps_for, List.mem_filterMap] at he
    obtain ⟨oper, _, hres⟩ := he
    cases happ : oper.apply system l.get_value r.get_value with
    | none => rw [happ] at hres; exact absurd hres (by simp)
    | some a =>
        rw [happ] at hres
        dsimp only at hres
        by_cases h0 : a = 0
        · rw [if_pos h0] at hres; exact absurd hres (by simp)
        · rw [if_neg h0] at hres
          by_cases hv : (Expression.Application a oper l r).is_valid = true
          · rw [if_pos hv] at hres
            cases hres
            exact ⟨h0, happ, hv,
              Expression.deep_ok_mono system (List.take_subset mid nums) l hld,
              Expression.deep_ok_mono system (List.drop_subset mid nums) r hrd⟩
          · rw [if_neg hv] at hres; exact absurd hres (by simp)
termination_by nums.length
decreasing_by
  · simp only [List.length_take]; omega
  · simp only [List.length_drop]; omega

/-- "The right child is an application with this same operator". -/
def same_op_right (op : Operator) : Expression → Prop
  | .Value _ => False
  | .Application _ op' _ _ => op' = op

/-- The left-nesting canonicalization property, at every node of a tree:
no `Add`/`Mul` application anywhere in the tree has a right child that is
an application with the same operator. -/
def Expression.assoc_canonical : Expression → Prop
  | .Value _ => True
  | .Application _ op l r =>
      ((op = .Add ∨ op = .Mul) → ¬ same_op_right op r) ∧
      l.assoc_canonical ∧ r.assoc_canonical

/-- `is_valid` at an application node yields the `Add`/`Mul` right-child
restriction. -/
theorem is_valid_same_op (a : Nat) (op : Operator) (l r : Expression)
    (hv : (Expression.Application a op l r).is_valid = true)
    (hop : op = .Add ∨ op = .Mul) : ¬ same_op_right op r := by
  intro hsame
  cases r with
  | Value _ => exact hsame
  | Application a' op' l' r' =>
      have hop' : op' = op := hsame
      rcases hop with rfl | rfl <;>
        simp [Expression.is_valid, hop'] at hv

/-- `deep_ok` implies the recursive canonicalization property. -/
theorem Expression.deep_ok_assoc_canonical (system : NumberSystem)
    (src : List Nat) :
    ∀ e : Expression, e.deep_ok system src → e.assoc_canonical
  | .Value _, _ => trivial
  | .Application a op l r, ⟨_, _, hv, hl, hr⟩ =>
      ⟨is_valid_same_op a op l r hv,
        deep_ok_assoc_canonical system src l hl,
        deep_ok_assoc_canonical system src r hr⟩

/-- `deep_ok` implies that re-evaluation reproduces the memoized value. -/
theorem Expression.deep_ok_re_eval (system : NumberSystem) (src : List Nat) :
    ∀ e : Expression, e.deep_ok system src →
      e.re_eval system = some e.get_value
  | .Value _, _ => rfl
  | .Application a op l r, ⟨_, happ, _, hl, hr⟩ => by
      have ihl := deep_ok_re_eval system src l hl
      have ihr := deep_ok_re_eval system src r hr
      simp only [Expression.re_eval, ihl, ihr, Option.bind_some]
      exact happ

end Countdown

namespace Countdown

/-! ## Claims about the number systems -/

/-- C1 (code_bug): the claim says `div(2, 3)` under prime modulus 7
returns `Some(3)` (2 times the inverse 5 of 3).  The code's
`multiplicative_inverse` raises to the power `m - 1`, so by Fermat's
little theorem it returns 1 for every unit, and `div(2, 3) = Some(2)`:
the claimed result `Some(3)` is not produced. -/
theorem c1_div_mod7_failing_input :
    msys_div (ModularNumberSystem.new 7) 2 3 = some 2 ∧
    multiplicative_inverse 7 3 = 1 ∧
    (3 * 5) % 7 = 1 ∧ (5 * 3) % 7 = 1 ∧
    msys_div (ModularNumberSystem.new 7) 2 3 ≠ some 3 := by
  refine ⟨?_, ?_, by norm_num, by norm_num, ?_⟩ <;>
    simp [msys_div, msys_mul, ModularNumberSystem.new, multiplicative_inverse,
      msys_pow, t_into_range, checked_mul, USIZE_MAX, is_prime, is_prime_loop]

/-- C2 (code_bug): the claim says that under the composite modulus 6,
`div` returns `None` for every pair of canonical operands.  Because
`is_prime` tests `a % self` instead of `self % a`, the cached primality
flag of modulus 6 is `true` and division proceeds: `div(2, 5)` under
modulus 6 returns `Some(4)`, not `None`. -/
theorem c2_composite_modulus_div_failing_input :
    (ModularNumberSystem.new 6).primeFlag = true ∧
    msys_div (ModularNumberSystem.new 6) 2 5 = some 4 ∧
    msys_div (ModularNumberSystem.new 6) 2 5 ≠ none := by
  refine ⟨?_, ?_, ?_⟩ <;>
    simp [msys_div, msys_mul, ModularNumberSystem.new, multiplicative_inverse,
      msys_pow, t_into_range, checked_mul, USIZE_MAX, is_prime, is_prime_loop]

/-- The loop of `is_prime` can never find a "divisor": its test
`a % n == 0` requires `n ∣ a` with `2 ≤ a`, hence `n ≤ a`, which together
with the loop bound `a * a ≤ n` forces `n ≤ 1` — and for `n ≤ 1` the loop
is never entered.  So the loop always runs to completion and answers
`true`. -/
theorem is_prime_loop_true (n a : Nat) (h2 : 2 ≤ a) :
    is_prime_loop n a = true := by
  rw [is_prime_loop]
  split
  · rename_i hle
    have hmod : a % n ≠ 0 := by
      intro h0
      have hdvd : n ∣ a := Nat.dvd_of_mod_eq_zero h0
      have hpos : 0 < a := by omega
      have hna : n ≤ a := Nat.le_of_dvd hpos hdvd
      have : n * n ≤ a * a := Nat.mul_le_mul hna hna
      nlinarith
    simp [hmod]
    exact is_prime_loop_true n (a + 1) (by omega)
  · rfl
termination_by n + 1 - a
decreasing_by
  have hle : a * a ≤ n := by assumption
  have : a ≤ n := le_trans (Nat.le_mul_of_pos_left a (by omega)) hle
  omega

/-- C5 (code_bug): the claim says `is_prime` decides primality by trial
division (so `is_prime 4` and `is_prime 6` are `false`).  The code
divides the trial divisor by `n` (`a % self`) instead of `n` by the
divisor, so the test returns `true` for every input; in particular it
calls 4 and 6 prime even though 2 divides both with `2 * 2 ≤ 4 ∧ 2 * 2 ≤ 6`. -/
theorem c5_is_prime_always_true :
    (∀ n, is_prime n = true) ∧
    (is_prime 4 = true ∧ 2 * 2 ≤ 4 ∧ 4 % 2 = 0) ∧
    (is_prime 6 = true ∧ 2 * 2 ≤ 6 ∧ 6 % 2 = 0) := by
  have h : ∀ n, is_prime n = true := fun n => is_prime_loop_true n 2 le_rfl
  exact ⟨h, ⟨h 4, by norm_num, by norm_num⟩, ⟨h 6, by norm_num, by norm_num⟩⟩

/-- C4 counterexample: the claim says `mul(a, ZERO)` is `None` for every
`a`; but `mul`'s guard only excludes the multiplicative identity, so
`mul(5, 0) = Some(0)`. -/
theorem c4_mul_zero_counterexample :
    normal_mul 5 0 = some 0 ∧ normal_mul 5 0 ≠ none := by
  constructor <;> simp [normal_mul, checked_mul, USIZE_MAX]

/-- C4 (amended): `add`/`sub` return a result only when `a > b` and
neither operand is `ZERO`; `mul`/`div` return a result only when `a > b`
and neither operand is `ONE` — the `ONE` test replaces (rather than
extends) the `ZERO` test, so `mul(a, ZERO) = Some(ZERO)` for every
`a ≥ 2` instead of `None`. -/
theorem c4_normal_system_guards (a b : Nat) :
    (normal_add a b ≠ none → b < a ∧ a ≠ 0 ∧ b ≠ 0) ∧
    (normal_sub a b ≠ none → b < a ∧ a ≠ 0 ∧ b ≠ 0) ∧
    (normal_mul a b ≠ none → b < a ∧ a ≠ 1 ∧ b ≠ 1) ∧
    (normal_div a b ≠ none → b < a ∧ a ≠ 1 ∧ b ≠ 1) ∧
    (2 ≤ a → normal_mul a 0 = some 0) := by
  refine ⟨?_, ?_, ?_, ?_, ?_⟩
  · intro h
    by_contra hc
    simp [normal_add, gt_iff_lt] at h
    tauto
  · intro h
    by_contra hc
    simp [normal_sub, gt_iff_lt] at h
    tauto
  · intro h
    by_contra hc
    simp [normal_mul, gt_iff_lt] at h
    tauto
  · intro h
    by_contra hc
    simp [normal_div, gt_iff_lt] at h
    tauto
  · intro h
    simp [normal_mul, checked_mul, USIZE_MAX]
    omega

/-- Witness for C4: at `a = 5`, `b = 0` the amended theorem gives
`mul(5, 0) = Some(0)` and the `sub` guard instantiated concretely. -/
theorem c4_normal_system_guards_witness :
    normal_mul 5 0 = some 0 :=
  (c4_normal_system_guards 5 0).2.2.2.2 (by norm_num)

/-! ## Claims about the expression-tree search -/

/-- Concrete run used by witnesses: the four trees generated from the
ordered sequence `[5, 3]` in the ordinary system with all operators. -/
theorem generate_tree_53_eval :
    generate_tree NormalNumberSystem Operators.ALL.toList [5, 3] =
      [.Application 8 .Add (.Value 5) (.Value 3),
       .Application 2 .Sub (.Value 5) (.Value 3),
       .Application 15 .Mul (.Value 5) (.Value 3),
       .Application 1 .Div (.Value 5) (.Value 3)] := by
  rw [generate_tree_pair]
  decide

/-- C6 counterexample: for the length-1 input sequence `[0]`,
`generate_tree` emits the leaf `Value 0` with no zero check, so an
emitted expression whose memoized value is the additive identity exists. -/
theorem c6_zero_leaf_counterexample :
    Expression.Value 0 ∈
      generate_tree NormalNumberSystem Operators.ALL.toList [0] ∧
    (Expression.Value 0).get_value = 0 := by
  rw [generate_tree_singleton]
  exact ⟨List.mem_singleton.mpr rfl, rfl⟩

/-- C6 (amended): every `Application` emitted by `generate_tree` has a
nonzero memoized value, for every input sequence, number system and
operator set; leaves are emitted with their source value unchecked, so
every emitted expression (leaves included) has nonzero value provided
all source numbers are nonzero. -/
theorem c6_emitted_value_nonzero (system : NumberSystem)
    (operators : List Operator) (nums : List Nat) (e : Expression)
    (he : e ∈ generate_tree system operators nums) :
    (∀ a op l r, e = Expression.Application a op l r → a ≠ 0) ∧
    ((∀ x ∈ nums, x ≠ 0) → e.get_value ≠ 0) := by
  have hd := generate_tree_deep_ok system operators nums e he
  constructor
  · intro a op l r hEq
    subst hEq
    exact hd.1
  · intro hnz
    cases e with
    | Value v => exact hnz v hd
    | Application a op l r => exact hd.1

/-- Witness for C6 (amended): the tree `5 + 3` generated from the
all-nonzero sequence `[5, 3]` has nonzero memoized value. -/
theorem c6_emitted_value_nonzero_witness :
    (Expression.Application 8 .Add (.Value 5) (.Value 3)).get_value ≠ 0 :=
  (c6_emitted_value_nonzero NormalNumberSystem Operators.ALL.toList [5, 3] _
      (by rw [generate_tree_53_eval]; decide)).2 (by decide)

/-- C7 (confirmed, in its strong recursive form): in every tree emitted
by `generate_tree` — for every input sequence, number system and operator
set — no `Add`/`Mul` application node anywhere in the tree has a right
child that is an application with the same operator. -/
theorem c7_assoc_canonical (system : NumberSystem)
    (operators : List Operator) (nums : List Nat) (e : Expression)
    (he : e ∈ generate_tree system operators nums) :
    e.assoc_canonical :=
  Expression.deep_ok_assoc_canonical system nums e
    (generate_tree_deep_ok system operators nums e he)

/-- Witness for C7: the emitted tree `5 + 3` satisfies the
canonicalization property. -/
theorem c7_assoc_canonical_witness :
    (Expression.Application 8 .Add (.Value 5) (.Value 3)).assoc_canonical :=
  c7_assoc_canonical NormalNumberSystem Operators.ALL.toList [5, 3] _
    (by rw [generate_tree_53_eval]; decide)

/-- C8 (confirmed): for every expression emitted by `generate_tree`
under a number system, re-evaluating it bottom-up under that same system
succeeds and reproduces the memoized value — `check` holds. -/
theorem c8_re_eval_roundtrip (system : NumberSystem)
    (operators : List Operator) (nums : List Nat) (e : Expression)
    (he : e ∈ generate_tree system operators nums) :
    e.check system :=
  Expression.deep_ok_re_eval system nums e
    (generate_tree_deep_ok system operators nums e he)

/-- Witness for C8: re-evaluating the emitted tree `5 + 3` under the
ordinary system returns its memoized value 8. -/
theorem c8_re_eval_roundtrip_witness :
    (Expression.Application 8 .Add (.Value 5) (.Value 3)).check
      NormalNumberSystem :=
  c8_re_eval_roundtrip NormalNumberSystem Operators.ALL.toList [5, 3] _
    (by rw [generate_tree_53_eval]; decide)

/-! ## Claims about the thread-backed sender -/

/-- C9 counterexample: the claim says `send` never panics and returns
`false` whenever the downstream has stopped accepting; but with the
inner sender still present and the receiver disconnected, `send`
panics (explicit `panic!()` in src/timing/threaded.rs, `.unwrap()` in
src/timing.rs) instead of returning `false`. -/
theorem c9_send_panics_counterexample :
    (ts_send (some false) (0 : Nat)).outcome = .panicked ∧
    (ts_send (some false) (0 : Nat)).outcome ≠ .ok false := by
  constructor <;> simp [ts_send]

/-- C9 (amended): `send` returns `false` (а harmless no-op, delivering
nothing) exactly when `set_done` has already cleared the inner sender;
while the inner sender is present, `send` returns `true` and delivers
when the receiver is connected, and panics — rather than returning
`false` — when the receiver has disconnected. -/
theorem c9_send_behaviour {α : Type} (s : Option Bool) (v : α) :
    ((ts_send s v).outcome = .ok false ↔ s = none) ∧
    (s = none → ts_send s v = ⟨.ok false, none, none⟩) ∧
    (s = some true → ts_send s v = ⟨.ok true, some true, some v⟩) ∧
    (s = some false → (ts_send s v).outcome = .panicked) := by
  cases s with
  | none => simp [ts_send]
  | some conn => cases conn <;> simp [ts_send]

/-- Witness for C9: the amended theorem applied at the concrete state
"`set_done` has run" and item `7`. -/
theorem c9_send_behaviour_witness :
    ts_send (none : Option Bool) (7 : Nat) = ⟨.ok false, none, none⟩ :=
  (c9_send_behaviour none 7).2.1 rfl

/-- C10 (confirmed): after `set_done` — called directly or by `Drop` —
every `send` returns `false` and delivers nothing, and a further
`set_done` leaves the state unchanged (idempotence). -/
theorem c10_set_done_idempotent {α : Type} (s s' : Option Bool) (v : α) :
    ts_send (ts_set_done s) v = ⟨.ok false, none, none⟩ ∧
    ts_send (ts_drop s) v = ⟨.ok false, none, none⟩ ∧
    ts_set_done (ts_set_done s) = ts_set_done s ∧
    ts_set_done s' = ts_set_done s := by
  simp [ts_send, ts_set_done, ts_drop]

end Countdown
